import Mathlib

/-!
Verification of the family-tree graph consistency and entity-resolution engine.

The data model follows the Kuzu schema declared in src/app/db.py (Person nodes,
PARENT_OF and SPOUSE_OF edges, PersonComment nodes) and the spec data model.
Operations are translated from src/app/main.py and src/app/trees.py where those
files contain them; the graph-store crud module used by main.py (count_parents,
count_spouses, merge_person_into, merge_spouse_children, delete_person with
comment cascade) is not present under src/app - only its callers and its tests
are - so those operations are modelled from the spec, as marked on each
definition.
-/

namespace FamilyTreeVerify

/-- A Person node, after the columns of the Person table in src/app/db.py
(id, display_name, sex, notes, dataset, tree_id, birth_date, death_date,
is_deceased). -/
structure Person where
  id : String
  display_name : String
  sex : String
  notes : String
  dataset : String
  tree_id : String
  birth_date : String
  death_date : String
  is_deceased : Bool
deriving Repr, DecidableEq

/-- The two relationship kinds the engine constrains (spec data model). -/
inductive RelType where
  | PARENT_OF
  | SPOUSE_OF
deriving Repr, DecidableEq

/-- A directed relationship edge between two Person nodes. -/
structure Rel where
  from_person_id : String
  to_person_id : String
  type : RelType
deriving Repr, DecidableEq

/-- A PersonComment node, after the PersonComment table in src/app/db.py. -/
structure Comment where
  id : String
  person_id : String
  tree_id : String
  author_id : String
  author_name : String
  content : String
  created_at : String
deriving Repr, DecidableEq

/-- The graph-store state the engine mutates: Person nodes, relationship
edges, and comment nodes. -/
structure State where
  people : List Person
  rels : List Rel
  comments : List Comment
deriving Repr, DecidableEq

/-- get_person: look a person up by id (MATCH (p:Person) WHERE p.id = $id). -/
def get_person (s : State) (pid : String) : Option Person :=
  s.people.find? (fun p => p.id = pid)

/-- Modelled from the spec: count_parents is absent from src/app (main.py calls
crud.count_parents); per the spec it counts existing incoming PARENT_OF edges
on the child. -/
def count_parents (s : State) (pid : String) : Nat :=
  (s.rels.filter (fun r => decide (r.type = RelType.PARENT_OF ∧ r.to_person_id = pid))).length

/-- Modelled from the spec: count_spouses is absent from src/app (main.py calls
crud.count_spouses); per the spec it counts existing SPOUSE_OF edges touching
the person, checking both edge directions. -/
def count_spouses (s : State) (pid : String) : Nat :=
  (s.rels.filter (fun r =>
    decide (r.type = RelType.SPOUSE_OF ∧
      (r.from_person_id = pid ∨ r.to_person_id = pid)))).length

/-- The person participates in some SPOUSE_OF edge, in either direction. -/
def participates_in_spouse (s : State) (pid : String) : Prop :=
  ∃ r ∈ s.rels, r.type = RelType.SPOUSE_OF ∧
    (r.from_person_id = pid ∨ r.to_person_id = pid)

instance (s : State) (pid : String) : Decidable (participates_in_spouse s pid) := by
  unfold participates_in_spouse
  infer_instance

/-- create_relationship: append a new edge between the two persons. -/
def create_relationship (s : State) (f t : String) (ty : RelType) : State :=
  { s with rels := s.rels ++ [⟨f, t, ty⟩] }

/-- list_comments: the comments attached to one person in one tree. -/
def list_comments (s : State) (pid tid : String) : List Comment :=
  s.comments.filter (fun c => decide (c.person_id = pid ∧ c.tree_id = tid))

/-- Modelled from the spec: delete_person with full cascade is absent from
src/app (the visible src/app/crud.py is a stale sqlalchemy module whose
delete_person has a different signature than the one main.py calls); per the
spec, person deletion cascades deletion of its Comments and all incident
Relationship edges. -/
def delete_person (s : State) (pid : String) : State :=
  { people := s.people.filter (fun p => decide (p.id ≠ pid)),
    rels := s.rels.filter (fun r =>
      decide (r.from_person_id ≠ pid ∧ r.to_person_id ≠ pid)),
    comments := s.comments.filter (fun c => decide (c.person_id ≠ pid)) }

/-- An equivalent edge already exists: same endpoints and type, where for the
logically symmetric SPOUSE_OF type the reverse direction also counts (spec
merge step 2 and crud tests of the symmetric edge check). -/
def equivalent_edge_exists (rels : List Rel) (f t : String) (ty : RelType) : Bool :=
  rels.any (fun r =>
    decide (r.type = ty ∧
      ((r.from_person_id = f ∧ r.to_person_id = t) ∨
       (ty = RelType.SPOUSE_OF ∧ r.from_person_id = t ∧ r.to_person_id = f))))

/-- One string field of the kept record: keep wins on genuine conflicts, a gap
(empty string) on keep is filled from remove (spec merge step 1). -/
def fill_string (keepVal removeVal : String) : String :=
  if keepVal = "" then removeVal else keepVal

/-- Sex reconciliation: the unset marker is the explicit unknown value U or
empty; a genuine value on keep always wins (spec merge step 1). -/
def fill_sex (keepVal removeVal : String) : String :=
  if keepVal = "" ∨ keepVal = "U" then
    (if removeVal = "" ∨ removeVal = "U" then keepVal else removeVal)
  else keepVal

/-- Property reconciliation of the kept record from the removed record over the
fixed field set, per spec merge step 1; id and display_name are untouched. -/
def reconcile_fields (keep remove : Person) : Person :=
  { keep with
    sex := fill_sex keep.sex remove.sex,
    notes := fill_string keep.notes remove.notes,
    birth_date := fill_string keep.birth_date remove.birth_date,
    death_date := fill_string keep.death_date remove.death_date,
    is_deceased := keep.is_deceased || remove.is_deceased }

/-- Fold step of the edge transfer: re-point one enumerated edge onto the
survivor unless an equivalent edge already exists in the accumulator. -/
def transfer_edge (acc : List Rel) (e : Rel) : List Rel :=
  if equivalent_edge_exists acc e.from_person_id e.to_person_id e.type then acc
  else acc ++ [e]

/-- Modelled from the spec: merge_person_into is absent from src/app (only its
tests and the merge_spouse_children caller are visible); spec merge contract:
1. property reconciliation onto keep; 2. idempotent re-pointing of the removed
person's outgoing then incoming edges, skipping self-edges and already-present
equivalents; 3. reassignment of every comment of the removed person to keep,
strictly before 4. the generic cascading delete of the removed person. -/
def merge_person_into (s : State) (keep_id remove_id : String) : State :=
  match get_person s keep_id, get_person s remove_id with
  | some _, some remove =>
    let people1 := s.people.map (fun p =>
      if p.id = keep_id then reconcile_fields p remove else p)
    let outgoing := s.rels.filter (fun r =>
      decide (r.from_person_id = remove_id ∧ r.to_person_id ≠ keep_id))
    let rels1 := outgoing.foldl
      (fun acc r => transfer_edge acc ⟨keep_id, r.to_person_id, r.type⟩) s.rels
    let incoming := s.rels.filter (fun r =>
      decide (r.to_person_id = remove_id ∧ r.from_person_id ≠ keep_id))
    let rels2 := incoming.foldl
      (fun acc r => transfer_edge acc ⟨r.from_person_id, keep_id, r.type⟩) rels1
    let comments1 := s.comments.map (fun c =>
      if c.person_id = remove_id then { c with person_id := keep_id } else c)
    delete_person { people := people1, rels := rels2, comments := comments1 } remove_id
  | _, _ => s

/-- get_children as a record list: the targets of the outgoing PARENT_OF edges
of one person, resolved to their Person records (a Kuzu MATCH pattern only
binds existing nodes). -/
def children_of (s : State) (pid : String) : List Person :=
  (s.rels.filter (fun r =>
    decide (r.type = RelType.PARENT_OF ∧ r.from_person_id = pid))).filterMap
    (fun r => get_person s r.to_person_id)

/-- Lexicographic comparison of char lists, the order Python sorted uses on
strings. -/
def charsLe : List Char → List Char → Bool
  | [], _ => true
  | _ :: _, [] => false
  | x :: xs, y :: ys => if x = y then charsLe xs ys else decide (x < y)

/-- String comparison for the deterministic sorted processing order. -/
def strLe (x y : String) : Bool :=
  charsLe x.data y.data

/-- Insert a string into a sorted list of strings. -/
def insertSorted (x : String) : List String → List String
  | [] => [x]
  | y :: ys => if strLe x y then x :: y :: ys else y :: insertSorted x ys

/-- Insertion sort over strings (sorted processing order of common names). -/
def sortStrings : List String → List String
  | [] => []
  | x :: xs => insertSorted x (sortStrings xs)

/-- One merge record of the reconciliation report. -/
structure MergedRec where
  name : String
  kept_id : String
  removed_id : String
deriving Repr, DecidableEq

/-- The reconciliation report {merged, shared_with_a, shared_with_b}. -/
structure ReconReport where
  merged : List MergedRec
  shared_with_a : List String
  shared_with_b : List String
deriving Repr, DecidableEq

/-- The bucketed pair of child records for one common display name: the first
matching child record of each partner. -/
def matchPair (cA cB : List Person) (n : String) : Option (Person × Person) :=
  match cA.find? (fun c => c.display_name = n),
        cB.find? (fun c => c.display_name = n) with
  | some x, some y => some (x, y)
  | _, _ => none

/-- Modelled from the spec: reconciliation step 3 - for each common display
name in sorted order, if the two matching child records are distinct Person
entities, merge them keeping the first partner's child, recording
{name, kept_id, removed_id}. -/
def mergeCommon (cA cB : List Person) : List String → State → State × List MergedRec
  | [], st => (st, [])
  | n :: ns, st =>
    match matchPair cA cB n with
    | some (x, y) =>
      if x.id = y.id then mergeCommon cA cB ns st
      else
        let st1 := merge_person_into st x.id y.id
        let res := mergeCommon cA cB ns st1
        (res.1, ⟨n, x.id, y.id⟩ :: res.2)
    | none => mergeCommon cA cB ns st

/-- Modelled from the spec: reconciliation step 4 - give the partner pid an
additional PARENT_OF edge onto each listed child unless that edge already
exists, recording each display name. -/
def shareChildren (pid : String) : List Person → State → State × List String
  | [], st => (st, [])
  | k :: ks, st =>
    let st1 :=
      if equivalent_edge_exists st.rels pid k.id RelType.PARENT_OF then st
      else { st with rels := st.rels ++ [⟨pid, k.id, RelType.PARENT_OF⟩] }
    let res := shareChildren pid ks st1
    (res.1, k.display_name :: res.2)

/-- Modelled from the spec: merge_spouse_children is absent from src/app (only
its tests and its caller in main.py are visible). Per spec reconciliation:
collect the two partners' children bucketed by display_name; partition names
into common, A-only and B-only; merge the pair of each common name in sorted
order keeping A's child; then share each A-only child with B and each B-only
child with A unless the parent edge already exists; return the report. -/
def merge_spouse_children (s : State) (a b : String) : State × ReconReport :=
  let cA := children_of s a
  let cB := children_of s b
  let namesA := cA.map (fun c => c.display_name)
  let namesB := cB.map (fun c => c.display_name)
  let common := sortStrings ((namesA.filter (fun n => namesB.contains n)).dedup)
  let step3 := mergeCommon cA cB common s
  let aOnly := cA.filter (fun c => !(namesB.contains c.display_name))
  let step4 := shareChildren b aOnly step3.1
  let bOnly := cB.filter (fun c => !(namesA.contains c.display_name))
  let step5 := shareChildren a bOnly step4.1
  (step5.1, ⟨step3.2, step5.2, step4.2⟩)

/-- The error taxonomy surfaced by the route layer: HTTPException status
buckets used in src/app/main.py and src/app/trees.py. -/
inductive ApiError where
  | badRequest (msg : String)
  | notFound (msg : String)
  | forbidden (msg : String)
deriving Repr, DecidableEq

/-- tree_add_rel, from src/app/main.py lines 557-577, after its require_role
gate: the PARENT_OF branch rejects when the child already has at least one
parent; the SPOUSE_OF branch rejects when either person already has a spouse;
otherwise the edge is created and, for SPOUSE_OF, merge_spouse_children runs
on the new state and its report is attached to the result. Error message
strings are kept apostrophe-free. -/
def tree_add_rel (s : State) (f t : String) (ty : RelType) :
    Except ApiError (State × Option ReconReport) :=
  match ty with
  | RelType.PARENT_OF =>
    if count_parents s t ≥ 1 then
      Except.error (ApiError.badRequest
        "This person already has a parent. Use Replace Parent to change it.")
    else Except.ok (create_relationship s f t RelType.PARENT_OF, none)
  | RelType.SPOUSE_OF =>
    if count_spouses s f ≥ 1 then
      Except.error (ApiError.badRequest "This person already has a spouse.")
    else if count_spouses s t ≥ 1 then
      Except.error (ApiError.badRequest "The other person already has a spouse.")
    else
      let s1 := create_relationship s f t RelType.SPOUSE_OF
      let res := merge_spouse_children s1 f t
      Except.ok (res.1, some res.2)

/-- Effective roles, ordered by the fixed hierarchy of src/app/trees.py. -/
inductive Role where
  | none
  | viewer
  | editor
  | owner
deriving Repr, DecidableEq

/-- ROLE_HIERARCHY from src/app/trees.py. -/
def rank : Role → Nat
  | Role.none => 0
  | Role.viewer => 1
  | Role.editor => 2
  | Role.owner => 3

/-- The role stored on an access-grant edge: the spec data model restricts a
grant edge to role in {editor, viewer} (ownership is a separate edge kind);
the request-schema module enforcing this is not under src/app. -/
inductive GrantRole where
  | viewer
  | editor
deriving Repr, DecidableEq

/-- The effective role a grant edge contributes. -/
def grole : GrantRole → Role
  | GrantRole.viewer => Role.viewer
  | GrantRole.editor => Role.editor

/-- The running-best update of get_user_role: replace best when the candidate
ranks strictly higher. -/
def roleMax (best cand : Role) : Role :=
  if rank cand > rank best then cand else best

/-- A direct CAN_ACCESS edge (user to tree, role and granted_at payload). -/
structure DirectGrant where
  user_id : String
  tree_id : String
  role : GrantRole
  granted_at : String
deriving Repr, DecidableEq

/-- A GROUP_CAN_ACCESS edge (group to tree, role and granted_at payload). -/
structure GroupGrant where
  group_id : String
  tree_id : String
  role : GrantRole
  granted_at : String
deriving Repr, DecidableEq

/-- A User node: the fields the modelled endpoints touch. -/
structure User where
  id : String
  email : String
  magic_token : String
deriving Repr, DecidableEq

/-- A UserGroup node: the fields the modelled endpoints touch. -/
structure Group where
  id : String
  name : String
deriving Repr, DecidableEq

/-- The entitlement state: User and UserGroup nodes, OWNS edges, direct and
group grant edges, and MEMBER_OF edges, per the Kuzu schema in src/app/db.py. -/
structure AclState where
  users : List User
  groups : List Group
  owns : List (String × String)
  direct : List DirectGrant
  groupGrants : List GroupGrant
  memberships : List (String × String)
deriving Repr, DecidableEq

/-- The group grant rows the Kuzu pattern of get_user_role step 3 returns for
one user and tree: GROUP_CAN_ACCESS edges onto the tree from a group the user
is a MEMBER_OF. -/
def userGroupGrants (st : AclState) (uid tid : String) : List GroupGrant :=
  st.groupGrants.filter (fun g =>
    decide (g.tree_id = tid ∧ (uid, g.group_id) ∈ st.memberships))

/-- get_user_role from src/app/trees.py: ownership wins outright; otherwise
start from none, raise the best by the single direct grant row if any, then by
every group grant row. -/
def get_user_role (st : AclState) (uid tid : String) : Role :=
  if (uid, tid) ∈ st.owns then Role.owner
  else
    (userGroupGrants st uid tid).foldl (fun b g => roleMax b (grole g.role))
      (match st.direct.find? (fun g => decide (g.user_id = uid ∧ g.tree_id = tid)) with
       | some g => roleMax Role.none (grole g.role)
       | none => Role.none)

/-- Refinement target, modelled from the spec wording of the access-control
resolver: owner iff the ownership edge is held; otherwise the maximum over the
direct grants on the tree and the group grants of every group the user belongs
to; none when no source grants access. -/
def effective_role_spec (st : AclState) (uid tid : String) : Role :=
  if (uid, tid) ∈ st.owns then Role.owner
  else
    let directRoles :=
      (st.direct.filter (fun g => decide (g.user_id = uid ∧ g.tree_id = tid))).map
        (fun g => grole g.role)
    let groupRoles :=
      (st.groupGrants.filter (fun g =>
        decide ((uid, g.group_id) ∈ st.memberships ∧ g.tree_id = tid))).map
        (fun g => grole g.role)
    (directRoles ++ groupRoles).foldl roleMax Role.none

/-- Printed role names for the Forbidden message. -/
def roleName : Role → String
  | Role.none => "none"
  | Role.viewer => "viewer"
  | Role.editor => "editor"
  | Role.owner => "owner"

/-- require_role from src/app/trees.py: resolve the effective role; below the
minimum it raises 404 when the role is none, else 403; otherwise it returns
the resolved role. -/
def require_role (st : AclState) (uid tid : String) (minRole : Role) :
    Except ApiError Role :=
  let role := get_user_role st uid tid
  if rank role < rank minRole then
    if role = Role.none then Except.error (ApiError.notFound "Tree not found")
    else Except.error (ApiError.forbidden ("Requires " ++ roleName minRole ++ " access"))
  else Except.ok role

/-- grant_user_access from src/app/trees.py: when a CAN_ACCESS edge for the
pair already exists, SET updates role and granted_at on the matched edges;
otherwise a fresh edge is created. -/
def grant_user_access (st : AclState) (tid uid : String) (role : GrantRole)
    (now : String) : AclState :=
  if 0 < (st.direct.filter (fun g => decide (g.user_id = uid ∧ g.tree_id = tid))).length then
    { st with direct := st.direct.map (fun g =>
        if g.user_id = uid ∧ g.tree_id = tid then
          { g with role := role, granted_at := now } else g) }
  else
    { st with direct := st.direct ++ [⟨uid, tid, role, now⟩] }

/-- update_user_access from src/app/trees.py: SET on every matched edge. -/
def update_user_access (st : AclState) (tid uid : String) (role : GrantRole)
    (now : String) : AclState :=
  { st with direct := st.direct.map (fun g =>
      if g.user_id = uid ∧ g.tree_id = tid then
        { g with role := role, granted_at := now } else g) }

/-- revoke_user_access from src/app/trees.py: DELETE every matched edge. -/
def revoke_user_access (st : AclState) (tid uid : String) : AclState :=
  { st with direct := st.direct.filter (fun g =>
      decide (¬(g.user_id = uid ∧ g.tree_id = tid))) }

/-- grant_group_access from src/app/trees.py, same update-or-create shape on
GROUP_CAN_ACCESS edges. -/
def grant_group_access (st : AclState) (tid gid : String) (role : GrantRole)
    (now : String) : AclState :=
  if 0 < (st.groupGrants.filter (fun g => decide (g.group_id = gid ∧ g.tree_id = tid))).length then
    { st with groupGrants := st.groupGrants.map (fun g =>
        if g.group_id = gid ∧ g.tree_id = tid then
          { g with role := role, granted_at := now } else g) }
  else
    { st with groupGrants := st.groupGrants ++ [⟨gid, tid, role, now⟩] }

/-- update_group_access from src/app/trees.py. -/
def update_group_access (st : AclState) (tid gid : String) (role : GrantRole)
    (now : String) : AclState :=
  { st with groupGrants := st.groupGrants.map (fun g =>
      if g.group_id = gid ∧ g.tree_id = tid then
        { g with role := role, granted_at := now } else g) }

/-- revoke_group_access from src/app/trees.py. -/
def revoke_group_access (st : AclState) (tid gid : String) : AclState :=
  { st with groupGrants := st.groupGrants.filter (fun g =>
      decide (¬(g.group_id = gid ∧ g.tree_id = tid))) }

/-- get_tree_owner_id from src/app/trees.py. -/
def get_tree_owner_id (st : AclState) (tid : String) : Option String :=
  (st.owns.find? (fun o => o.2 = tid)).map (fun o => o.1)

/-- get_user_by_email from src/app/auth.py: case-folded, trimmed lookup. -/
def get_user_by_email (st : AclState) (email : String) : Option User :=
  st.users.find? (fun u => u.email = email.trim.toLower)

/-- Modelled from the spec: create_user_invited is absent from src/app/auth.py
(main.py calls it to auto-create an invited user with no password); it adds a
fresh User node with the normalised email. -/
def create_user_invited (st : AclState) (email fresh_uid : String) :
    AclState × User :=
  let u : User := ⟨fresh_uid, email.trim.toLower, ""⟩
  ({ st with users := st.users ++ [u] }, u)

/-- Modelled from the spec: ensure_magic_token is absent from src/app/auth.py
(main.py calls it after granting membership); it returns the existing magic
token of the user or assigns the supplied fresh one. -/
def ensure_magic_token (st : AclState) (uid fresh_token : String) :
    AclState × String :=
  match st.users.find? (fun u => u.id = uid) with
  | some u =>
    if u.magic_token = "" then
      ({ st with users := st.users.map (fun v =>
          if v.id = uid then { v with magic_token := fresh_token } else v) },
       fresh_token)
    else (st, u.magic_token)
  | none => (st, fresh_token)

/-- get_group from src/app/groups.py. -/
def get_group (st : AclState) (gid : String) : Option Group :=
  st.groups.find? (fun g => g.id = gid)

/-- add_member endpoint from src/app/main.py: require owner, resolve or invite
the user by email, refuse to add the owner, grant access, ensure the magic
token. fresh_uid and fresh_token stand for the generated uuid and token. -/
def add_member (st : AclState) (caller tid email : String) (role : GrantRole)
    (fresh_uid fresh_token now : String) : Except ApiError (AclState × String) :=
  match require_role st caller tid Role.owner with
  | Except.error e => Except.error e
  | Except.ok _ =>
    let found :=
      match get_user_by_email st email with
      | some u => (st, u)
      | none => create_user_invited st email fresh_uid
    let st1 := found.1
    let target := found.2
    if get_tree_owner_id st1 tid = some target.id then
      Except.error (ApiError.badRequest "Cannot add the owner as a member")
    else
      let st2 := grant_user_access st1 tid target.id role now
      let ensured := ensure_magic_token st2 target.id fresh_token
      Except.ok (ensured.1, ensured.2)

/-- update_member endpoint from src/app/main.py: require owner, then update
the direct grant. -/
def update_member (st : AclState) (caller tid uid : String) (role : GrantRole)
    (now : String) : Except ApiError AclState :=
  match require_role st caller tid Role.owner with
  | Except.error e => Except.error e
  | Except.ok _ => Except.ok (update_user_access st tid uid role now)

/-- remove_member endpoint from src/app/main.py: require owner, then revoke
the direct grant. -/
def remove_member (st : AclState) (caller tid uid : String) :
    Except ApiError AclState :=
  match require_role st caller tid Role.owner with
  | Except.error e => Except.error e
  | Except.ok _ => Except.ok (revoke_user_access st tid uid)

/-- grant_group endpoint from src/app/main.py: require owner, check the group
exists, then grant group access. -/
def grant_group (st : AclState) (caller tid gid : String) (role : GrantRole)
    (now : String) : Except ApiError AclState :=
  match require_role st caller tid Role.owner with
  | Except.error e => Except.error e
  | Except.ok _ =>
    match get_group st gid with
    | none => Except.error (ApiError.notFound "Group not found")
    | some _ => Except.ok (grant_group_access st tid gid role now)

/-- update_group_access endpoint from src/app/main.py: require owner, then
update the group grant. -/
def update_group_access_ep (st : AclState) (caller tid gid : String)
    (role : GrantRole) (now : String) : Except ApiError AclState :=
  match require_role st caller tid Role.owner with
  | Except.error e => Except.error e
  | Except.ok _ => Except.ok (update_group_access st tid gid role now)

/-- revoke_group endpoint from src/app/main.py: require owner, then revoke the
group grant. -/
def revoke_group (st : AclState) (caller tid gid : String) :
    Except ApiError AclState :=
  match require_role st caller tid Role.owner with
  | Except.error e => Except.error e
  | Except.ok _ => Except.ok (revoke_group_access st tid gid)

/-- Python str.split with a one-character separator: every occurrence splits,
empty pieces are kept, the empty string yields one empty piece. Strings are
embedded as char lists to reason about the splitting. -/
def splitOnChar (sep : Char) : List Char → List (List Char)
  | [] => [[]]
  | c :: rest =>
    let r := splitOnChar sep rest
    if c = sep then [] :: r
    else
      match r with
      | [] => [[c]]
      | h :: hs => (c :: h) :: hs

/-- One lowercase hex digit, as Python hexdigits render a nibble. -/
def hexDigit (n : Nat) : Char :=
  if n < 10 then Char.ofNat (48 + n) else Char.ofNat (87 + n)

/-- hexdigest of a byte list: two lowercase hex chars per byte, as the Python
hexdigest of the hmac object. -/
def hexdigest (bytes : List Nat) : List Char :=
  bytes.flatMap (fun b => [hexDigit (b / 16 % 16), hexDigit (b % 16)])

/-- Decimal digit characters of a natural number, as Python str(int) renders
the integer timestamp. -/
def natToChars (n : Nat) : List Char :=
  if _h : n < 10 then [hexDigit n]
  else natToChars (n / 10) ++ [hexDigit (n % 10)]
decreasing_by exact Nat.div_lt_self (Nat.lt_of_lt_of_le (by decide) (Nat.le_of_not_lt _h)) (by decide)

/-- create_session_token from src/app/auth.py: the token is
user_id:timestamp:signature where the signature is the hex HMAC-SHA256 of the
payload user_id:timestamp under COOKIE_SECRET. The byte-level primitive is the
external hashlib/hmac dependency, taken as an arbitrary function hmac from
secret and payload to digest bytes; ts is the integer timestamp. -/
def create_session_token (hmac : List Char → List Char → List Nat)
    (secret user_id : List Char) (ts : Nat) : List Char :=
  let payload := user_id ++ ':' :: natToChars ts
  payload ++ ':' :: hexdigest (hmac secret payload)

/-- verify_session_token from src/app/auth.py: refuse an empty token or
secret; split on colons and require exactly three parts; recompute the
signature over user_id:ts and compare; return the user_id on a match. -/
def verify_session_token (hmac : List Char → List Char → List Nat)
    (secret token : List Char) : Option (List Char) :=
  if token = [] ∨ secret = [] then none
  else
    match splitOnChar ':' token with
    | [user_id, ts, sig] =>
      let payload := user_id ++ ':' :: ts
      let expected := hexdigest (hmac secret payload)
      if sig = expected then some user_id else none
    | _ => none

/-- A person record with default field values, as create_person builds one. -/
def mkPerson (pid nm : String) : Person :=
  ⟨pid, nm, "U", "", "", "", "", "", false⟩

/-- A comment record on one person. -/
def mkComment (cid pid : String) : Comment :=
  ⟨cid, pid, "t1", "alice", "Alice", "note", "2024-01-01"⟩

/-- Concrete graph: a child c with exactly one parent p1, and a second
prospective parent p2. -/
def oneParentState : State :=
  { people := [mkPerson "p1" "Parent One", mkPerson "p2" "Parent Two",
               mkPerson "c" "Child"],
    rels := [⟨"p1", "c", RelType.PARENT_OF⟩],
    comments := [] }

/-- Concrete graph for the merge claims: keep and remove both exist, remove
carries two comments and keep one. -/
def mergeWitnessState : State :=
  { people := [mkPerson "keep" "Keep", mkPerson "rm" "Remove"],
    rels := [],
    comments := [mkComment "c1" "rm", mkComment "c2" "rm", mkComment "c3" "keep"] }

/-- The error kinds require_role raises: 404 or 403. -/
def is_auth_error (e : ApiError) : Prop :=
  (∃ m, e = ApiError.notFound m) ∨ (∃ m, e = ApiError.forbidden m)

/-- At most one direct CAN_ACCESS edge per (user, tree) pair, stated as
pairwise distinctness of the key fields. -/
def no_dup_direct (l : List DirectGrant) : Prop :=
  l.Pairwise (fun g h => ¬(g.user_id = h.user_id ∧ g.tree_id = h.tree_id))

/-- At most one GROUP_CAN_ACCESS edge per (group, tree) pair. -/
def no_dup_group (l : List GroupGrant) : Prop :=
  l.Pairwise (fun g h => ¬(g.group_id = h.group_id ∧ g.tree_id = h.tree_id))

instance (l : List DirectGrant) : Decidable (no_dup_direct l) := by
  unfold no_dup_direct
  infer_instance

instance (l : List GroupGrant) : Decidable (no_dup_group l) := by
  unfold no_dup_group
  infer_instance

/-- Concrete entitlement state: alice owns tree t; bob holds a direct viewer
grant and, through group g1, an editor grant. -/
def aclWitnessState : AclState :=
  { users := [⟨"alice", "alice@x", ""⟩, ⟨"bob", "bob@x", ""⟩],
    groups := [⟨"g1", "Group One"⟩],
    owns := [("alice", "t")],
    direct := [⟨"bob", "t", GrantRole.viewer, "ts1"⟩],
    groupGrants := [⟨"g1", "t", GrantRole.editor, "ts2"⟩],
    memberships := [("bob", "g1")] }

/-- A concrete stand-in for the external HMAC-SHA256 primitive: any function
from secret and payload to digest bytes fits the theorems, which quantify over
it. -/
def hmacW : List Char → List Char → List Nat :=
  fun _ _ => [171, 5]

/-- Concrete graph: alice and bob are spouses, carol is single. -/
def spouseWitnessState : State :=
  { people := [mkPerson "al" "Alice", mkPerson "bo" "Bob", mkPerson "ca" "Carol"],
    rels := [⟨"al", "bo", RelType.SPOUSE_OF⟩],
    comments := [] }

/-- The sorted deduplicated common display names of the two partners'
children, as merge_spouse_children computes them. -/
def commonNames (s : State) (a b : String) : List String :=
  sortStrings ((((children_of s a).map (fun c => c.display_name)).filter
    (fun n => ((children_of s b).map (fun c => c.display_name)).contains n)).dedup)

/-- The children of the first partner whose display name does not occur among
the second partner's children. -/
def onlyKids (s : State) (a b : String) : List Person :=
  (children_of s a).filter (fun c =>
    !(((children_of s b).map (fun c => c.display_name)).contains c.display_name))

/-- Person ids are unique in the store (the Person table has PRIMARY KEY id). -/
def nodup_ids (s : State) : Prop :=
  (s.people.map (fun p => p.id)).Nodup

instance (s : State) : Decidable (nodup_ids s) := by
  unfold nodup_ids
  infer_instance

/-- No child record of either partner is one of the partners themselves. -/
def children_proper (s : State) (a b : String) : Prop :=
  ∀ c ∈ children_of s a ++ children_of s b, c.id ≠ a ∧ c.id ≠ b

instance (s : State) (a b : String) : Decidable (children_proper s a b) := by
  unfold children_proper
  infer_instance

/-- ch is the one child record of parent carrying display name n. -/
def unique_child_named (s : State) (parent n : String) (ch : Person) : Prop :=
  ch ∈ children_of s parent ∧ ch.display_name = n ∧
    ∀ c ∈ children_of s parent, c.display_name = n → c = ch

instance (s : State) (parent n : String) (ch : Person) :
    Decidable (unique_child_named s parent n ch) := by
  unfold unique_child_named
  infer_instance

/-- Concrete graph for reconciliation: father F with children Kid (k1) and
Solo (s1); mother M with a distinct child also named Kid (k2); no spouses. -/
def reconWitnessState : State :=
  { people := [mkPerson "F" "Father", mkPerson "M" "Mother",
               mkPerson "k1" "Kid", mkPerson "k2" "Kid", mkPerson "s1" "Solo"],
    rels := [⟨"F", "k1", RelType.PARENT_OF⟩, ⟨"M", "k2", RelType.PARENT_OF⟩,
             ⟨"F", "s1", RelType.PARENT_OF⟩],
    comments := [] }

-- ═══ Helper lemmas ═══

theorem get_person_delete_self (s : State) (pid : String) :
    get_person (delete_person s pid) pid = none := by
  unfold get_person delete_person
  rw [List.find?_eq_none]
  intro p hp
  simp only [List.mem_filter, decide_eq_true_eq] at hp
  simp [hp.2]

theorem mem_people_delete (s : State) (pid : String) (q : Person) :
    q ∈ (delete_person s pid).people ↔ q ∈ s.people ∧ q.id ≠ pid := by
  unfold delete_person
  simp [List.mem_filter]

theorem mem_rels_delete (s : State) (pid : String) (r : Rel) :
    r ∈ (delete_person s pid).rels ↔
      r ∈ s.rels ∧ r.from_person_id ≠ pid ∧ r.to_person_id ≠ pid := by
  unfold delete_person
  simp [List.mem_filter, and_assoc]

theorem mem_comments_delete (s : State) (pid : String) (c : Comment) :
    c ∈ (delete_person s pid).comments ↔ c ∈ s.comments ∧ c.person_id ≠ pid := by
  unfold delete_person
  simp [List.mem_filter]

-- ═══ Claim C7 ═══

/-- Claim C7: for every existing person id, delete_person removes exactly that
person, the relationship edges incident to it in either position, and the
comments attached to it; every other person, edge, and comment survives. The
membership equivalences state both the cascade and that nothing else is
removed. -/
theorem c7_delete_person_cascade (s : State) (pid : String) (p : Person)
    (_hex : get_person s pid = some p) :
    get_person (delete_person s pid) pid = none ∧
    (∀ q : Person, q ∈ (delete_person s pid).people ↔ q ∈ s.people ∧ q.id ≠ pid) ∧
    (∀ r : Rel, r ∈ (delete_person s pid).rels ↔
      r ∈ s.rels ∧ r.from_person_id ≠ pid ∧ r.to_person_id ≠ pid) ∧
    (∀ c : Comment, c ∈ (delete_person s pid).comments ↔
      c ∈ s.comments ∧ c.person_id ≠ pid) := by
  refine ⟨get_person_delete_self s pid, ?_, ?_, ?_⟩
  · exact mem_people_delete s pid
  · exact mem_rels_delete s pid
  · exact mem_comments_delete s pid

/-- Witness for C7 on a concrete graph: the person rm exists, and after
deletion it is gone, its comment is gone, while the other person and its
comment survive. -/
theorem c7_witness :
    get_person mergeWitnessState "rm" = some (mkPerson "rm" "Remove") ∧
    get_person (delete_person mergeWitnessState "rm") "rm" = none ∧
    (mkComment "c3" "keep") ∈ (delete_person mergeWitnessState "rm").comments := by
  have h := c7_delete_person_cascade mergeWitnessState "rm" (mkPerson "rm" "Remove")
    (by decide)
  refine ⟨by decide, h.1, ?_⟩
  rw [h.2.2.2]
  decide

-- ═══ Claim C1 ═══

/-- Claim C1 evaluation: in the visible code of tree_add_rel
(src/app/main.py lines 561-564) the PARENT_OF branch rejects as soon as the
child has at least ONE parent. On a child with exactly one existing parent the
request for a second parent is refused with the 400 error and nothing is
written, although the spec (and the repository tests
test_api_relationships.py) require the second parent to be accepted and only
a third to be rejected. -/
theorem c1_second_parent_rejected_by_code :
    count_parents oneParentState "c" = 1 ∧
    tree_add_rel oneParentState "p2" "c" RelType.PARENT_OF =
      Except.error (ApiError.badRequest
        "This person already has a parent. Use Replace Parent to change it.") := by
  constructor
  · decide
  · rfl

-- ═══ Claim C2 ═══

/-- Claim C2: merging remove into keep (both existing, distinct) leaves no
person under the removed id, reattaches every comment of the removed person so
that list_comments on keep returns it, and deletes no comment: the comment
count is preserved. The comment reassignment happens strictly before the
cascading delete of the removed person in merge_person_into, which is why the
delete cannot drop them. -/
theorem c2_merge_preserves_comments (s : State) (keep_id remove_id : String)
    (k r : Person) (hk : get_person s keep_id = some k)
    (hr : get_person s remove_id = some r) (hne : keep_id ≠ remove_id) :
    get_person (merge_person_into s keep_id remove_id) remove_id = none ∧
    (∀ c ∈ s.comments, c.person_id = remove_id →
      ({ c with person_id := keep_id } : Comment) ∈
        list_comments (merge_person_into s keep_id remove_id) keep_id c.tree_id) ∧
    (merge_person_into s keep_id remove_id).comments.length = s.comments.length := by
  unfold merge_person_into
  rw [hk, hr]
  set mid : State :=
    { people := s.people.map (fun p =>
        if p.id = keep_id then reconcile_fields p r else p),
      rels := (s.rels.filter (fun x =>
          decide (x.to_person_id = remove_id ∧ x.from_person_id ≠ keep_id))).foldl
        (fun acc x => transfer_edge acc ⟨x.from_person_id, keep_id, x.type⟩)
        ((s.rels.filter (fun x =>
            decide (x.from_person_id = remove_id ∧ x.to_person_id ≠ keep_id))).foldl
          (fun acc x => transfer_edge acc ⟨keep_id, x.to_person_id, x.type⟩) s.rels),
      comments := s.comments.map (fun c =>
        if c.person_id = remove_id then { c with person_id := keep_id } else c) }
    with hmid
  refine ⟨get_person_delete_self mid remove_id, ?_, ?_⟩
  · intro c hc hcr
    have hmem : ({ c with person_id := keep_id } : Comment) ∈ mid.comments := by
      rw [hmid]
      exact List.mem_map.mpr ⟨c, hc, by rw [if_pos hcr]⟩
    unfold list_comments
    rw [List.mem_filter]
    refine ⟨(mem_comments_delete mid remove_id _).mpr ⟨hmem, ?_⟩, ?_⟩
    · simpa using hne
    · simp
  · have hall : (delete_person mid remove_id).comments = mid.comments := by
      unfold delete_person
      rw [List.filter_eq_self]
      intro c hc
      rw [hmid] at hc
      rcases List.mem_map.mp hc with ⟨c0, _, hc0⟩
      by_cases h0 : c0.person_id = remove_id
      · rw [if_pos h0] at hc0
        simpa [← hc0] using hne
      · rw [if_neg h0] at hc0
        simpa [← hc0] using h0
    rw [hall, hmid]
    exact List.length_map _ _

/-- Witness for C2 on a concrete graph: both persons exist, remove vanishes,
its comment reappears under keep, and the comment count stays 3. -/
theorem c2_witness :
    get_person (merge_person_into mergeWitnessState "keep" "rm") "rm" = none ∧
    ({ mkComment "c1" "rm" with person_id := "keep" } : Comment) ∈
      list_comments (merge_person_into mergeWitnessState "keep" "rm") "keep"
        (mkComment "c1" "rm").tree_id ∧
    (merge_person_into mergeWitnessState "keep" "rm").comments.length = 3 := by
  have h := c2_merge_preserves_comments mergeWitnessState "keep" "rm"
    (mkPerson "keep" "Keep") (mkPerson "rm" "Remove") (by decide) (by decide)
    (by decide)
  refine ⟨h.1, h.2.1 (mkComment "c1" "rm") (by decide) (by decide), ?_⟩
  rw [h.2.2]
  decide

-- ═══ Claim C6 ═══

/-- Counterexample to C6 as stated: with the minimum role none, a caller whose
effective role is none is returned the role instead of receiving the 404, so
the NotFound clause of the claim fails for that minimum. -/
theorem c6_counterexample :
    get_user_role ⟨[], [], [], [], [], []⟩ "u" "t" = Role.none ∧
    require_role ⟨[], [], [], [], [], []⟩ "u" "t" Role.none =
      Except.ok Role.none := by
  constructor
  · rfl
  · rfl

/-- Claim C6 as amended: for a minimum role above none, require_role raises
NotFound when the effective role is none, raises Forbidden when the effective
role is above none but below the minimum, and returns the resolved role when
it reaches the minimum. -/
theorem c6_require_role_gate (st : AclState) (uid tid : String) (minRole : Role) :
    (get_user_role st uid tid = Role.none → minRole ≠ Role.none →
      require_role st uid tid minRole = Except.error (ApiError.notFound "Tree not found")) ∧
    (get_user_role st uid tid ≠ Role.none →
      rank (get_user_role st uid tid) < rank minRole →
      require_role st uid tid minRole =
        Except.error (ApiError.forbidden ("Requires " ++ roleName minRole ++ " access"))) ∧
    (rank minRole ≤ rank (get_user_role st uid tid) →
      require_role st uid tid minRole = Except.ok (get_user_role st uid tid)) := by
  unfold require_role
  refine ⟨?_, ?_, ?_⟩
  · intro h0 hmin
    rw [h0]
    have : 0 < rank minRole := by
      cases minRole
      · exact absurd rfl hmin
      · exact Nat.zero_lt_one
      · exact Nat.zero_lt_succ 1
      · exact Nat.zero_lt_succ 2
    rw [if_pos (by simpa [rank] using this), if_pos rfl]
  · intro h0 hlt
    rw [if_pos hlt, if_neg h0]
  · intro hge
    rw [if_neg (Nat.not_lt.mpr hge)]

/-- Witness for C6 on the concrete entitlement state: a stranger gets 404 for
a viewer-gated call, bob (effective editor) gets 403 on an owner-gated call
and the resolved role on a viewer-gated call. -/
theorem c6_witness :
    require_role aclWitnessState "nobody" "t" Role.viewer =
      Except.error (ApiError.notFound "Tree not found") ∧
    require_role aclWitnessState "bob" "t" Role.owner =
      Except.error (ApiError.forbidden ("Requires " ++ roleName Role.owner ++ " access")) ∧
    require_role aclWitnessState "bob" "t" Role.viewer =
      Except.ok (get_user_role aclWitnessState "bob" "t") := by
  refine ⟨(c6_require_role_gate aclWitnessState "nobody" "t" Role.viewer).1
            (by decide) (by decide),
          (c6_require_role_gate aclWitnessState "bob" "t" Role.owner).2.1
            (by decide) (by decide),
          (c6_require_role_gate aclWitnessState "bob" "t" Role.viewer).2.2
            (by decide)⟩

-- ═══ Token lemmas for C10 ═══

theorem hexDigit_small_ne_colon : ∀ k : Nat, k < 16 → hexDigit k ≠ ':' := by
  decide

theorem hexdigest_no_colon (bytes : List Nat) : ':' ∉ hexdigest bytes := by
  unfold hexdigest
  intro hmem
  rcases List.mem_flatMap.mp hmem with ⟨b, _, hc⟩
  simp only [List.mem_cons, List.not_mem_nil, or_false] at hc
  rcases hc with h | h
  · exact hexDigit_small_ne_colon (b / 16 % 16) (Nat.mod_lt _ (by decide)) h.symm
  · exact hexDigit_small_ne_colon (b % 16) (Nat.mod_lt _ (by decide)) h.symm

theorem natToChars_no_colon (n : Nat) : ':' ∉ natToChars n := by
  induction n using Nat.strong_induction_on with
  | _ n ih =>
    rw [natToChars]
    by_cases h : n < 10
    · rw [dif_pos h]
      intro hc
      simp only [List.mem_singleton] at hc
      exact hexDigit_small_ne_colon n (Nat.lt_trans h (by decide)) hc.symm
    · rw [dif_neg h]
      intro hc
      rcases List.mem_append.mp hc with hc | hc
      · exact ih (n / 10)
          (Nat.div_lt_self (Nat.lt_of_lt_of_le (by decide) (Nat.le_of_not_lt h)) (by decide)) hc
      · simp only [List.mem_singleton] at hc
        exact hexDigit_small_ne_colon (n % 10)
          (Nat.lt_trans (Nat.mod_lt _ (by decide)) (by decide)) hc.symm

theorem splitOnChar_no_sep (sep : Char) (u : List Char) (h : sep ∉ u) :
    splitOnChar sep u = [u] := by
  induction u with
  | nil => rfl
  | cons c cs ih =>
    have hc : c ≠ sep := fun he => h (by simp [he])
    have hcs : sep ∉ cs := fun hm => h (List.mem_cons_of_mem _ hm)
    rw [splitOnChar, ih hcs]
    simp [hc]

theorem splitOnChar_append (sep : Char) (u rest : List Char) (h : sep ∉ u) :
    splitOnChar sep (u ++ sep :: rest) = u :: splitOnChar sep rest := by
  induction u with
  | nil =>
    rw [List.nil_append, splitOnChar]
    simp
  | cons c cs ih =>
    have hc : c ≠ sep := fun he => h (by simp [he])
    have hcs : sep ∉ cs := fun hm => h (List.mem_cons_of_mem _ hm)
    rw [List.cons_append, splitOnChar, ih hcs]
    simp [hc]

-- ═══ Claim C10 ═══

/-- Claim C10: for any user id without a colon and a nonempty secret, the
verifier inverts the token creator exactly, recovering the user id; the
verifier returns none for any token that does not split into exactly three
colon-separated parts, and for any three-part token whose signature does not
equal the recomputed digest of its payload. Quantified over the external
HMAC-SHA256 byte primitive. -/
theorem c10_session_token_roundtrip (hmac : List Char → List Char → List Nat)
    (secret user_id : List Char) (ts : Nat) :
    (':' ∉ user_id → secret ≠ [] →
      verify_session_token hmac secret
        (create_session_token hmac secret user_id ts) = some user_id) ∧
    (∀ token : List Char, (splitOnChar ':' token).length ≠ 3 →
      verify_session_token hmac secret token = none) ∧
    (∀ token u tpart sg : List Char, splitOnChar ':' token = [u, tpart, sg] →
      sg ≠ hexdigest (hmac secret (u ++ ':' :: tpart)) →
      verify_session_token hmac secret token = none) := by
  refine ⟨?_, ?_, ?_⟩
  · intro hu hs
    unfold create_session_token verify_session_token
    have htok : (user_id ++ ':' :: natToChars ts) ++
        ':' :: hexdigest (hmac secret (user_id ++ ':' :: natToChars ts)) =
        user_id ++ ':' ::
          (natToChars ts ++ ':' ::
            hexdigest (hmac secret (user_id ++ ':' :: natToChars ts))) := by
      simp
    rw [htok]
    have hne : ¬(user_id ++ ':' ::
        (natToChars ts ++ ':' ::
          hexdigest (hmac secret (user_id ++ ':' :: natToChars ts))) = [] ∨
        secret = []) := by
      rw [not_or]
      exact ⟨by simp, hs⟩
    rw [if_neg hne]
    rw [splitOnChar_append ':' user_id _ hu,
        splitOnChar_append ':' (natToChars ts) _ (natToChars_no_colon ts),
        splitOnChar_no_sep ':' _ (hexdigest_no_colon _)]
    simp
  · intro token hlen
    unfold verify_session_token
    by_cases hg : token = [] ∨ secret = []
    · rw [if_pos hg]
    · rw [if_neg hg]
      rcases hsp : splitOnChar ':' token with _ | ⟨a, _ | ⟨b, _ | ⟨c, _ | ⟨d, rest⟩⟩⟩⟩
      · rfl
      · rfl
      · rfl
      · exact absurd (by rw [hsp]; rfl) hlen
      · rfl
  · intro token u tpart sg hsp hsig
    unfold verify_session_token
    by_cases hg : token = [] ∨ secret = []
    · rw [if_pos hg]
    · rw [if_neg hg, hsp]
      simp only
      rw [if_neg hsig]

/-- Witness for C10: a concrete secret, user id and timestamp round-trip; a
colon-free token and a forged three-part token are both refused. -/
theorem c10_witness :
    verify_session_token hmacW [Char.ofNat 107]
      (create_session_token hmacW [Char.ofNat 107] [Char.ofNat 117] 12) =
      some [Char.ofNat 117] ∧
    verify_session_token hmacW [Char.ofNat 107] [Char.ofNat 97, Char.ofNat 98] = none ∧
    verify_session_token hmacW [Char.ofNat 107]
      [Char.ofNat 97, ':', Char.ofNat 98, ':', Char.ofNat 99] = none := by
  refine ⟨(c10_session_token_roundtrip hmacW [Char.ofNat 107] [Char.ofNat 117] 12).1
            (by decide) (by decide),
          (c10_session_token_roundtrip hmacW [Char.ofNat 107] [Char.ofNat 117] 12).2.1
            [Char.ofNat 97, Char.ofNat 98] (by decide),
          (c10_session_token_roundtrip hmacW [Char.ofNat 107] [Char.ofNat 117] 12).2.2
            [Char.ofNat 97, ':', Char.ofNat 98, ':', Char.ofNat 99]
            [Char.ofNat 97] [Char.ofNat 98] [Char.ofNat 99] (by decide) (by decide)⟩

-- ═══ List lemmas for C9 ═══

theorem filter_length_le_one_of_pairwise {α : Type} (p : α → Bool) (l : List α)
    (h : l.Pairwise (fun a b => ¬(p a = true ∧ p b = true))) :
    (l.filter p).length ≤ 1 := by
  induction l with
  | nil => simp
  | cons x xs ih =>
    rw [List.pairwise_cons] at h
    by_cases hx : p x
    · rw [List.filter_cons_of_pos hx]
      have hnil : xs.filter p = [] := by
        rw [List.filter_eq_nil_iff]
        intro a ha hpa
        exact h.1 a ha ⟨hx, hpa⟩
      rw [hnil]
      exact Nat.le_refl 1
    · rw [List.filter_cons_of_neg hx]
      exact ih h.2

theorem filter_singleton_of_pos {α : Type} (p : α → Bool) (l : List α)
    (hle : (l.filter p).length ≤ 1) (hpos : 0 < (l.filter p).length) :
    ∃ g, l.filter p = [g] ∧ p g = true := by
  have h1 : (l.filter p).length = 1 := Nat.le_antisymm hle hpos
  rcases List.length_eq_one.mp h1 with ⟨g, hg⟩
  refine ⟨g, hg, ?_⟩
  have : g ∈ l.filter p := by
    rw [hg]
    exact List.mem_singleton_self g
  exact (List.mem_filter.mp this).2

-- ═══ Claim C9 ═══

/-- Claim C9: at most one direct grant edge per (user, tree) pair and one
group grant edge per (group, tree) pair is maintained by the grant functions:
when a matching edge exists they update its role and granted_at in place, and
they append a fresh edge only when none matches, so repeated grants never
accumulate duplicates. Stated as: distinctness of key pairs is preserved, the
matching entries of the result are exactly the one updated edge, and the
non-matching entries are untouched. -/
theorem c9_grant_access_no_duplicates (st : AclState) (tid uid gid : String)
    (role : GrantRole) (now : String) :
    (no_dup_direct st.direct →
      no_dup_direct (grant_user_access st tid uid role now).direct ∧
      (grant_user_access st tid uid role now).direct.filter
        (fun g => decide (g.user_id = uid ∧ g.tree_id = tid)) =
        [⟨uid, tid, role, now⟩] ∧
      (grant_user_access st tid uid role now).direct.filter
        (fun g => decide (¬(g.user_id = uid ∧ g.tree_id = tid))) =
        st.direct.filter (fun g => decide (¬(g.user_id = uid ∧ g.tree_id = tid)))) ∧
    (no_dup_group st.groupGrants →
      no_dup_group (grant_group_access st tid gid role now).groupGrants ∧
      (grant_group_access st tid gid role now).groupGrants.filter
        (fun g => decide (g.group_id = gid ∧ g.tree_id = tid)) =
        [⟨gid, tid, role, now⟩] ∧
      (grant_group_access st tid gid role now).groupGrants.filter
        (fun g => decide (¬(g.group_id = gid ∧ g.tree_id = tid))) =
        st.groupGrants.filter
          (fun g => decide (¬(g.group_id = gid ∧ g.tree_id = tid)))) := by
  constructor
  · intro h
    set P : DirectGrant → Bool := fun g => decide (g.user_id = uid ∧ g.tree_id = tid)
      with hP
    set f : DirectGrant → DirectGrant := fun g =>
      if g.user_id = uid ∧ g.tree_id = tid then
        { g with role := role, granted_at := now } else g
      with hf
    have hPf : ∀ g, P (f g) = P g := by
      intro g
      by_cases hm : g.user_id = uid ∧ g.tree_id = tid
      · simp [hf, hP, hm]
      · simp [hf, hP, hm]
    have hfid : ∀ g, P g = false → f g = g := by
      intro g hg
      rw [hP] at hg
      simp only [decide_eq_false_iff_not] at hg
      simp [hf, hg]
    have hfnew : ∀ g, P g = true → f g = (⟨uid, tid, role, now⟩ : DirectGrant) := by
      intro g hg
      rw [hP] at hg
      simp only [decide_eq_true_eq] at hg
      simp [hf, hg, hg.1, hg.2]
    have hpair : st.direct.Pairwise (fun a b => ¬(P a = true ∧ P b = true)) := by
      refine h.imp ?_
      intro a b hab hc
      rw [hP] at hc
      simp only [decide_eq_true_eq] at hc
      exact hab ⟨hc.1.1.trans hc.2.1.symm, hc.1.2.trans hc.2.2.symm⟩
    unfold grant_user_access
    by_cases hc : 0 < (st.direct.filter P).length
    · rw [if_pos hc]
      rcases filter_singleton_of_pos P st.direct
        (filter_length_le_one_of_pairwise P st.direct hpair) hc with ⟨g0, hg0, hpg0⟩
      have hmapfilter : ∀ q : DirectGrant → Bool,
          (st.direct.map f).filter q = (st.direct.filter (fun g => q (f g))).map f := by
        intro q
        rw [List.filter_map]
        rfl
      refine ⟨?_, ?_, ?_⟩
      · rw [no_dup_direct, List.pairwise_map]
        refine h.imp ?_
        intro a b hab hk
        refine hab ?_
        have ha := hPf a
        have hb := hPf b
        by_cases hma : a.user_id = uid ∧ a.tree_id = tid <;>
          by_cases hmb : b.user_id = uid ∧ b.tree_id = tid
        · exact ⟨hma.1.trans hmb.1.symm, hma.2.trans hmb.2.symm⟩
        · simp only [if_pos hma, if_neg hmb] at hk
          exact absurd ⟨hk.1.symm.trans hma.1, hk.2.symm.trans hma.2⟩ hmb
        · simp only [if_neg hma, if_pos hmb] at hk
          exact absurd ⟨hk.1.trans hmb.1, hk.2.trans hmb.2⟩ hma
        · simp only [if_neg hma, if_neg hmb] at hk
          exact hk
      · rw [hmapfilter P]
        have : st.direct.filter (fun g => P (f g)) = st.direct.filter P :=
          List.filter_congr (fun g _ => hPf g)
        rw [this, hg0, List.map_singleton, hfnew g0 hpg0]
      · rw [hmapfilter _]
        have hq : ∀ g : DirectGrant,
            (decide (¬((f g).user_id = uid ∧ (f g).tree_id = tid)) : Bool) =
            decide (¬(g.user_id = uid ∧ g.tree_id = tid)) := by
          intro g
          have h2 : (decide ((f g).user_id = uid ∧ (f g).tree_id = tid) : Bool) =
              decide (g.user_id = uid ∧ g.tree_id = tid) := hPf g
          simp only [decide_not]
          rw [h2]
        have h1 : st.direct.filter
            (fun g => decide (¬((f g).user_id = uid ∧ (f g).tree_id = tid))) =
            st.direct.filter (fun g => decide (¬(g.user_id = uid ∧ g.tree_id = tid))) :=
          List.filter_congr (fun g _ => hq g)
        rw [h1]
        refine List.map_congr_left ?_ |>.trans (List.map_id _)
        intro g hg
        have hgm := (List.mem_filter.mp hg).2
        simp only [decide_not, Bool.not_eq_true', decide_eq_false_iff_not] at hgm
        exact hfid g (by rw [hP]; simpa using hgm)
    · rw [if_neg hc]
      have hnil : st.direct.filter P = [] := by
        rcases List.eq_nil_or_concat (st.direct.filter P) with hn | _
        · exact hn
        · cases' Nat.eq_zero_or_pos (st.direct.filter P).length with hz hpos
          · exact List.length_eq_zero.mp hz
          · exact absurd hpos hc
      have hnew : P ⟨uid, tid, role, now⟩ = true := by
        rw [hP]
        simp
      refine ⟨?_, ?_, ?_⟩
      · rw [no_dup_direct, List.pairwise_append]
        refine ⟨h, List.pairwise_singleton _ _, ?_⟩
        intro a ha b hb hk
        have hb1 : b = (⟨uid, tid, role, now⟩ : DirectGrant) := by
          simpa using hb
        have hpa : P a = true := by
          rw [hP]
          rw [hb1] at hk
          simpa using hk
        have : a ∈ st.direct.filter P := List.mem_filter.mpr ⟨ha, hpa⟩
        rw [hnil] at this
        exact absurd this (List.not_mem_nil a)
      · rw [List.filter_append, hnil, List.nil_append,
          List.filter_cons_of_pos hnew]
        rfl
      · rw [List.filter_append]
        have : List.filter (fun g => decide (¬(g.user_id = uid ∧ g.tree_id = tid)))
            [(⟨uid, tid, role, now⟩ : DirectGrant)] = [] := by
          simp
        rw [this, List.append_nil]
  · intro h
    set P : GroupGrant → Bool := fun g => decide (g.group_id = gid ∧ g.tree_id = tid)
      with hP
    set f : GroupGrant → GroupGrant := fun g =>
      if g.group_id = gid ∧ g.tree_id = tid then
        { g with role := role, granted_at := now } else g
      with hf
    have hPf : ∀ g, P (f g) = P g := by
      intro g
      by_cases hm : g.group_id = gid ∧ g.tree_id = tid
      · simp [hf, hP, hm]
      · simp [hf, hP, hm]
    have hfid : ∀ g, P g = false → f g = g := by
      intro g hg
      rw [hP] at hg
      simp only [decide_eq_false_iff_not] at hg
      simp [hf, hg]
    have hfnew : ∀ g, P g = true → f g = (⟨gid, tid, role, now⟩ : GroupGrant) := by
      intro g hg
      rw [hP] at hg
      simp only [decide_eq_true_eq] at hg
      simp [hf, hg, hg.1, hg.2]
    have hpair : st.groupGrants.Pairwise (fun a b => ¬(P a = true ∧ P b = true)) := by
      refine h.imp ?_
      intro a b hab hc
      rw [hP] at hc
      simp only [decide_eq_true_eq] at hc
      exact hab ⟨hc.1.1.trans hc.2.1.symm, hc.1.2.trans hc.2.2.symm⟩
    unfold grant_group_access
    by_cases hc : 0 < (st.groupGrants.filter P).length
    · rw [if_pos hc]
      rcases filter_singleton_of_pos P st.groupGrants
        (filter_length_le_one_of_pairwise P st.groupGrants hpair) hc with ⟨g0, hg0, hpg0⟩
      have hmapfilter : ∀ q : GroupGrant → Bool,
          (st.groupGrants.map f).filter q = (st.groupGrants.filter (fun g => q (f g))).map f := by
        intro q
        rw [List.filter_map]
        rfl
      refine ⟨?_, ?_, ?_⟩
      · rw [no_dup_group, List.pairwise_map]
        refine h.imp ?_
        intro a b hab hk
        refine hab ?_
        by_cases hma : a.group_id = gid ∧ a.tree_id = tid <;>
          by_cases hmb : b.group_id = gid ∧ b.tree_id = tid
        · exact ⟨hma.1.trans hmb.1.symm, hma.2.trans hmb.2.symm⟩
        · simp only [if_pos hma, if_neg hmb] at hk
          exact absurd ⟨hk.1.symm.trans hma.1, hk.2.symm.trans hma.2⟩ hmb
        · simp only [if_neg hma, if_pos hmb] at hk
          exact absurd ⟨hk.1.trans hmb.1, hk.2.trans hmb.2⟩ hma
        · simp only [if_neg hma, if_neg hmb] at hk
          exact hk
      · rw [hmapfilter P]
        have : st.groupGrants.filter (fun g => P (f g)) = st.groupGrants.filter P :=
          List.filter_congr (fun g _ => hPf g)
        rw [this, hg0, List.map_singleton, hfnew g0 hpg0]
      · rw [hmapfilter _]
        have hq : ∀ g : GroupGrant,
            (decide (¬((f g).group_id = gid ∧ (f g).tree_id = tid)) : Bool) =
            decide (¬(g.group_id = gid ∧ g.tree_id = tid)) := by
          intro g
          have h2 : (decide ((f g).group_id = gid ∧ (f g).tree_id = tid) : Bool) =
              decide (g.group_id = gid ∧ g.tree_id = tid) := hPf g
          simp only [decide_not]
          rw [h2]
        have h1 : st.groupGrants.filter
            (fun g => decide (¬((f g).group_id = gid ∧ (f g).tree_id = tid))) =
            st.groupGrants.filter (fun g => decide (¬(g.group_id = gid ∧ g.tree_id = tid))) :=
          List.filter_congr (fun g _ => hq g)
        rw [h1]
        refine List.map_congr_left ?_ |>.trans (List.map_id _)
        intro g hg
        have hgm := (List.mem_filter.mp hg).2
        simp only [decide_not, Bool.not_eq_true', decide_eq_false_iff_not] at hgm
        exact hfid g (by rw [hP]; simpa using hgm)
    · rw [if_neg hc]
      have hnil : st.groupGrants.filter P = [] := by
        cases' Nat.eq_zero_or_pos (st.groupGrants.filter P).length with hz hpos
        · exact List.length_eq_zero.mp hz
        · exact absurd hpos hc
      have hnew : P ⟨gid, tid, role, now⟩ = true := by
        rw [hP]
        simp
      refine ⟨?_, ?_, ?_⟩
      · rw [no_dup_group, List.pairwise_append]
        refine ⟨h, List.pairwise_singleton _ _, ?_⟩
        intro a ha b hb hk
        have hb1 : b = (⟨gid, tid, role, now⟩ : GroupGrant) := by
          simpa using hb
        have hpa : P a = true := by
          rw [hP]
          rw [hb1] at hk
          simpa using hk
        have : a ∈ st.groupGrants.filter P := List.mem_filter.mpr ⟨ha, hpa⟩
        rw [hnil] at this
        exact absurd this (List.not_mem_nil a)
      · rw [List.filter_append, hnil, List.nil_append,
          List.filter_cons_of_pos hnew]
        rfl
      · rw [List.filter_append]
        have : List.filter (fun g => decide (¬(g.group_id = gid ∧ g.tree_id = tid)))
            [(⟨gid, tid, role, now⟩ : GroupGrant)] = [] := by
          simp
        rw [this, List.append_nil]

/-- Witness for C9: re-granting bob (who already holds a direct grant) leaves
one matching edge carrying the new role and timestamp and keeps the keys
distinct; granting an absent group creates the edge while keys stay
distinct. -/
theorem c9_witness :
    no_dup_direct (grant_user_access aclWitnessState "t" "bob" GrantRole.editor "ts9").direct ∧
    (grant_user_access aclWitnessState "t" "bob" GrantRole.editor "ts9").direct.filter
      (fun g => decide (g.user_id = "bob" ∧ g.tree_id = "t")) =
      [⟨"bob", "t", GrantRole.editor, "ts9"⟩] ∧
    no_dup_group (grant_group_access aclWitnessState "t" "g2" GrantRole.editor "ts9").groupGrants := by
  have h := c9_grant_access_no_duplicates aclWitnessState "t" "bob" "g2"
    GrantRole.editor "ts9"
  exact ⟨(h.1 (by decide)).1, (h.1 (by decide)).2.1, (h.2 (by decide)).1⟩

-- ═══ Claim C4 ═══

theorem count_spouses_pos_iff (s : State) (p : String) :
    1 ≤ count_spouses s p ↔ participates_in_spouse s p := by
  unfold count_spouses participates_in_spouse
  constructor
  · intro h1
    rcases List.length_pos_iff_exists_mem.mp h1 with ⟨r, hr⟩
    rw [List.mem_filter] at hr
    exact ⟨r, hr.1, by simpa using hr.2⟩
  · rintro ⟨r, hrm, hrp⟩
    exact List.length_pos_iff_exists_mem.mpr
      ⟨r, List.mem_filter.mpr ⟨hrm, by simpa using hrp⟩⟩

/-- Claim C4: a request to create a SPOUSE_OF edge between a and b fails with
the 400 spouse-limit error when a or b already participates in a SPOUSE_OF
edge counted in either direction, and then nothing is written (the operation
produces an error and no state); otherwise the request succeeds, the edge is
created, and spousal reconciliation runs on the state holding the new edge. -/
theorem c4_spouse_limit (s : State) (a b : String) :
    (participates_in_spouse s a ∨ participates_in_spouse s b →
      ∃ m, tree_add_rel s a b RelType.SPOUSE_OF =
        Except.error (ApiError.badRequest m)) ∧
    (¬participates_in_spouse s a → ¬participates_in_spouse s b →
      tree_add_rel s a b RelType.SPOUSE_OF =
        Except.ok
          ((merge_spouse_children (create_relationship s a b RelType.SPOUSE_OF) a b).1,
           some (merge_spouse_children (create_relationship s a b RelType.SPOUSE_OF) a b).2) ∧
      (Rel.mk a b RelType.SPOUSE_OF) ∈
        (create_relationship s a b RelType.SPOUSE_OF).rels) := by
  constructor
  · intro h
    unfold tree_add_rel
    by_cases ha : 1 ≤ count_spouses s a
    · rw [if_pos ha]
      exact ⟨_, rfl⟩
    · have hb : participates_in_spouse s b := by
        rcases h with h | h
        · exact absurd ((count_spouses_pos_iff s a).mpr h) ha
        · exact h
      rw [if_neg ha, if_pos ((count_spouses_pos_iff s b).mpr hb)]
      exact ⟨_, rfl⟩
  · intro ha hb
    unfold tree_add_rel
    rw [if_neg (fun hc => ha ((count_spouses_pos_iff s a).mp hc)),
        if_neg (fun hc => hb ((count_spouses_pos_iff s b).mp hc))]
    refine ⟨rfl, ?_⟩
    unfold create_relationship
    simp

/-- Witness for C4: adding a spouse to the already-married alice is refused,
while marrying two spouse-free people succeeds and creates the edge. -/
theorem c4_witness :
    (∃ m, tree_add_rel spouseWitnessState "al" "ca" RelType.SPOUSE_OF =
      Except.error (ApiError.badRequest m)) ∧
    (tree_add_rel oneParentState "p1" "p2" RelType.SPOUSE_OF =
      Except.ok
        ((merge_spouse_children
            (create_relationship oneParentState "p1" "p2" RelType.SPOUSE_OF) "p1" "p2").1,
         some (merge_spouse_children
            (create_relationship oneParentState "p1" "p2" RelType.SPOUSE_OF) "p1" "p2").2) ∧
      (Rel.mk "p1" "p2" RelType.SPOUSE_OF) ∈
        (create_relationship oneParentState "p1" "p2" RelType.SPOUSE_OF).rels) := by
  exact ⟨(c4_spouse_limit spouseWitnessState "al" "ca").1 (by decide),
         (c4_spouse_limit oneParentState "p1" "p2").2 (by decide) (by decide)⟩

-- ═══ Role-resolution lemmas for C3, C8 ═══

theorem find?_eq_head_filter {α : Type} (p : α → Bool) (l : List α) :
    l.find? p = (l.filter p).head? := by
  induction l with
  | nil => rfl
  | cons x xs ih =>
    rw [List.find?_cons, List.filter_cons]
    by_cases hx : p x
    · rw [hx]
      rfl
    · rw [Bool.eq_false_iff.mpr hx]
      exact ih

theorem grole_ne_owner (r : GrantRole) : grole r ≠ Role.owner := by
  cases r <;> decide

theorem roleMax_ne_owner (b c : Role) (hb : b ≠ Role.owner) (hc : c ≠ Role.owner) :
    roleMax b c ≠ Role.owner := by
  unfold roleMax
  by_cases h : rank c > rank b
  · rw [if_pos h]
    exact hc
  · rw [if_neg h]
    exact hb

theorem foldl_roleMax_ne_owner (l : List GroupGrant) (b : Role) (hb : b ≠ Role.owner) :
    l.foldl (fun x g => roleMax x (grole g.role)) b ≠ Role.owner := by
  induction l generalizing b with
  | nil => exact hb
  | cons g gs ih =>
    exact ih (roleMax b (grole g.role)) (roleMax_ne_owner _ _ hb (grole_ne_owner _))

theorem get_user_role_ne_owner (st : AclState) (uid tid : String)
    (how : (uid, tid) ∉ st.owns) : get_user_role st uid tid ≠ Role.owner := by
  unfold get_user_role
  rw [if_neg how]
  apply foldl_roleMax_ne_owner
  rcases hf : st.direct.find? (fun g => decide (g.user_id = uid ∧ g.tree_id = tid)) with
    _ | g
  · rw [hf]
    decide
  · rw [hf]
    exact roleMax_ne_owner _ _ (by decide) (grole_ne_owner _)

-- ═══ Claim C3 ═══

/-- Claim C3: get_user_role returns owner exactly when the user holds the
ownership edge, regardless of grants; otherwise it is the maximum, under
owner > editor > viewer > none, over the direct grant on the tree and the
group grants of every group the user belongs to, evaluated together, and none
when no source grants access - stated as equality with the role resolver
written from the spec wording. The hypothesis is the single-direct-grant
invariant that grant_user_access maintains (claim C9). -/
theorem c3_get_user_role_resolution (st : AclState) (uid tid : String)
    (h : no_dup_direct st.direct) :
    get_user_role st uid tid = effective_role_spec st uid tid ∧
    (get_user_role st uid tid = Role.owner ↔ (uid, tid) ∈ st.owns) := by
  by_cases how : (uid, tid) ∈ st.owns
  · constructor
    · unfold get_user_role effective_role_spec
      rw [if_pos how, if_pos how]
    · unfold get_user_role
      rw [if_pos how]
      exact ⟨fun _ => how, fun _ => rfl⟩
  · constructor
    · unfold get_user_role effective_role_spec
      rw [if_neg how, if_neg how]
      set P : DirectGrant → Bool :=
        fun g => decide (g.user_id = uid ∧ g.tree_id = tid) with hP
      have hfind := find?_eq_head_filter P st.direct
      have hle : (st.direct.filter P).length ≤ 1 := by
        refine filter_length_le_one_of_pairwise P st.direct (h.imp ?_)
        intro a b hab hc
        rw [hP] at hc
        simp only [decide_eq_true_eq] at hc
        exact hab ⟨hc.1.1.trans hc.2.1.symm, hc.1.2.trans hc.2.2.symm⟩
      rw [List.foldl_append]
      have hgroups : ∀ b0 : Role, (userGroupGrants st uid tid).foldl
          (fun b g => roleMax b (grole g.role)) b0 =
          ((st.groupGrants.filter (fun g =>
            decide ((uid, g.group_id) ∈ st.memberships ∧ g.tree_id = tid))).map
            (fun g => grole g.role)).foldl roleMax b0 := by
        intro b0
        rw [List.foldl_map]
        unfold userGroupGrants
        have hfe : (st.groupGrants.filter (fun g =>
            decide (g.tree_id = tid ∧ (uid, g.group_id) ∈ st.memberships))) =
            (st.groupGrants.filter (fun g =>
            decide ((uid, g.group_id) ∈ st.memberships ∧ g.tree_id = tid))) := by
          refine List.filter_congr ?_
          intro g _
          exact decide_eq_decide.mpr and_comm
        rw [hfe]
      rw [hgroups]
      congr 1
      rcases hfil : st.direct.filter P with _ | ⟨g0, rest⟩
      · rw [hfind, hfil]
        rfl
      · have hrest : rest = [] := by
          have h2 := hle
          rw [hfil, List.length_cons] at h2
          exact List.length_eq_zero.mp (by omega)
        subst hrest
        rw [hfind, hfil]
        rfl
    · refine ⟨fun hc => ?_, fun hc => absurd hc how⟩
      exact absurd hc (get_user_role_ne_owner st uid tid how)

/-- Witness for C3: on the concrete entitlement state, the resolver agrees
with the spec maximum for bob (direct viewer, group editor) and the owner
equivalence holds for both alice and bob. -/
theorem c3_witness :
    get_user_role aclWitnessState "bob" "t" = effective_role_spec aclWitnessState "bob" "t" ∧
    (get_user_role aclWitnessState "bob" "t" = Role.owner ↔ ("bob", "t") ∈ aclWitnessState.owns) := by
  exact c3_get_user_role_resolution aclWitnessState "bob" "t" (by decide)

-- ═══ Claim C8 ═══

theorem require_owner_error (st : AclState) (caller tid : String)
    (how : (caller, tid) ∉ st.owns) :
    ∃ e, is_auth_error e ∧ require_role st caller tid Role.owner = Except.error e := by
  have hne := get_user_role_ne_owner st caller tid how
  unfold require_role
  have hlt : rank (get_user_role st caller tid) < rank Role.owner := by
    rcases hrole : get_user_role st caller tid with _ | _ | _ | _
    · decide
    · decide
    · decide
    · exact absurd hrole hne
  rw [if_pos hlt]
  by_cases hz : get_user_role st caller tid = Role.none
  · rw [if_pos hz]
    exact ⟨_, Or.inl ⟨_, rfl⟩, rfl⟩
  · rw [if_neg hz]
    exact ⟨_, Or.inr ⟨_, rfl⟩, rfl⟩

/-- Claim C8: every grant-mutation endpoint - adding, updating or removing a
direct member grant, and granting, updating or revoking a group grant - runs
require_role owner first; a caller who does not hold the ownership edge
receives NotFound or Forbidden from that gate, the endpoint returns that error
and produces no state, so no grant mutation is reachable for a non-owner. -/
theorem c8_grant_mutations_require_owner (st : AclState)
    (caller tid email uid gid fresh_uid fresh_token now : String) (role : GrantRole)
    (how : (caller, tid) ∉ st.owns) :
    (∃ e, is_auth_error e ∧
      add_member st caller tid email role fresh_uid fresh_token now = Except.error e) ∧
    (∃ e, is_auth_error e ∧ update_member st caller tid uid role now = Except.error e) ∧
    (∃ e, is_auth_error e ∧ remove_member st caller tid uid = Except.error e) ∧
    (∃ e, is_auth_error e ∧ grant_group st caller tid gid role now = Except.error e) ∧
    (∃ e, is_auth_error e ∧
      update_group_access_ep st caller tid gid role now = Except.error e) ∧
    (∃ e, is_auth_error e ∧ revoke_group st caller tid gid = Except.error e) := by
  rcases require_owner_error st caller tid how with ⟨e, hae, herr⟩
  refine ⟨⟨e, hae, ?_⟩, ⟨e, hae, ?_⟩, ⟨e, hae, ?_⟩, ⟨e, hae, ?_⟩, ⟨e, hae, ?_⟩,
          ⟨e, hae, ?_⟩⟩
  · simp [add_member, herr]
  · simp [update_member, herr]
  · simp [remove_member, herr]
  · simp [grant_group, herr]
  · simp [update_group_access_ep, herr]
  · simp [revoke_group, herr]

/-- Witness for C8: bob, who is not the owner of tree t, is turned away with
an auth error by every one of the six grant-mutation endpoints. -/
theorem c8_witness :
    (∃ e, is_auth_error e ∧
      add_member aclWitnessState "bob" "t" "eve@x" GrantRole.viewer "u9" "tk" "now" =
        Except.error e) ∧
    (∃ e, is_auth_error e ∧
      update_member aclWitnessState "bob" "t" "alice" GrantRole.viewer "now" =
        Except.error e) ∧
    (∃ e, is_auth_error e ∧
      remove_member aclWitnessState "bob" "t" "alice" = Except.error e) ∧
    (∃ e, is_auth_error e ∧
      grant_group aclWitnessState "bob" "t" "g1" GrantRole.viewer "now" =
        Except.error e) ∧
    (∃ e, is_auth_error e ∧
      update_group_access_ep aclWitnessState "bob" "t" "g1" GrantRole.viewer "now" =
        Except.error e) ∧
    (∃ e, is_auth_error e ∧
      revoke_group aclWitnessState "bob" "t" "g1" = Except.error e) := by
  exact c8_grant_mutations_require_owner aclWitnessState "bob" "t" "eve@x" "alice"
    "g1" "u9" "tk" "now" GrantRole.viewer (by decide)

-- ═══ Reconciliation lemmas for C5: store lookups ═══

theorem get_person_some (s : State) (z : String) (p : Person)
    (h : get_person s z = some p) : p ∈ s.people ∧ p.id = z := by
  unfold get_person at h
  refine ⟨List.mem_of_find?_eq_some h, ?_⟩
  simpa using List.find?_some h

theorem get_person_none_iff (s : State) (z : String) :
    get_person s z = none ↔ ∀ p ∈ s.people, p.id ≠ z := by
  unfold get_person
  rw [List.find?_eq_none]
  constructor
  · intro h p hp
    simpa using h p hp
  · intro h p hp
    simpa using h p hp

theorem get_person_isSome_of_mem (s : State) (q : Person) (hq : q ∈ s.people) :
    ∃ p, get_person s q.id = some p ∧ p.id = q.id := by
  have hs : (s.people.find? (fun p => p.id = q.id)).isSome :=
    List.find?_isSome.mpr ⟨q, hq, by simp⟩
  rcases Option.isSome_iff_exists.mp hs with ⟨p, hp⟩
  exact ⟨p, hp, by simpa using List.find?_some hp⟩

theorem same_id_same_record (s : State) (hid : nodup_ids s) (p q : Person)
    (hp : p ∈ s.people) (hq : q ∈ s.people) (h : p.id = q.id) : p = q :=
  List.inj_on_of_nodup_map hid hp hq h

theorem get_person_of_mem_nodup (s : State) (hid : nodup_ids s) (q : Person)
    (hq : q ∈ s.people) : get_person s q.id = some q := by
  rcases get_person_isSome_of_mem s q hq with ⟨p, hp, hpid⟩
  rw [hp]
  exact congrArg some
    (same_id_same_record s hid p q (get_person_some s _ _ hp).1 hq hpid)

theorem child_mem (s : State) (pid : String) (x : Person)
    (hx : x ∈ children_of s pid) :
    x ∈ s.people ∧ (Rel.mk pid x.id RelType.PARENT_OF) ∈ s.rels := by
  unfold children_of at hx
  rcases List.mem_filterMap.mp hx with ⟨r, hr, hg⟩
  have hmem := get_person_some s _ _ hg
  have hrf := List.mem_filter.mp hr
  refine ⟨hmem.1, ?_⟩
  have h2 := hrf.2
  simp only [decide_eq_true_eq] at h2
  have hre : r = Rel.mk pid x.id RelType.PARENT_OF := by
    cases r
    simp only [Rel.mk.injEq]
    exact ⟨h2.2, hmem.2.symm, h2.1⟩
  rw [← hre]
  exact hrf.1

theorem mem_children_of (s : State) (pid z : String) (x : Person)
    (hr : (Rel.mk pid z RelType.PARENT_OF) ∈ s.rels)
    (hg : get_person s z = some x) : x ∈ children_of s pid := by
  unfold children_of
  exact List.mem_filterMap.mpr
    ⟨Rel.mk pid z RelType.PARENT_OF, List.mem_filter.mpr ⟨hr, by simp⟩, hg⟩

-- ═══ Reconciliation lemmas for C5: edge transfer ═══

theorem equiv_parent_mem (rels : List Rel) (f t : String) :
    equivalent_edge_exists rels f t RelType.PARENT_OF = true ↔
      (Rel.mk f t RelType.PARENT_OF) ∈ rels := by
  unfold equivalent_edge_exists
  rw [List.any_eq_true]
  constructor
  · rintro ⟨r, hr, hp⟩
    simp only [decide_eq_true_eq] at hp
    rcases hp with ⟨hty, hcase | hcase⟩
    · have hre : r = Rel.mk f t RelType.PARENT_OF := by
        cases r
        simp only [Rel.mk.injEq]
        exact ⟨hcase.1, hcase.2, hty⟩
      rw [← hre]
      exact hr
    · exact absurd hcase.1 (by decide)
  · intro h
    exact ⟨_, h, by simp⟩

theorem mem_transfer_edge (acc : List Rel) (e r : Rel) (h : r ∈ acc) :
    r ∈ transfer_edge acc e := by
  unfold transfer_edge
  split
  · exact h
  · exact List.mem_append_left _ h

theorem transfer_edge_sub (acc : List Rel) (e r : Rel)
    (h : r ∈ transfer_edge acc e) : r ∈ acc ∨ r = e := by
  unfold transfer_edge at h
  split at h
  · exact Or.inl h
  · rcases List.mem_append.mp h with h | h
    · exact Or.inl h
    · exact Or.inr (by simpa using h)

theorem mem_foldl_transfer {β : Type} (f : β → Rel) (L : List β) (acc : List Rel)
    (r : Rel) (h : r ∈ L.foldl (fun acc e => transfer_edge acc (f e)) acc) :
    r ∈ acc ∨ ∃ e ∈ L, r = f e := by
  induction L generalizing acc with
  | nil => exact Or.inl h
  | cons e L ih =>
    rcases ih (transfer_edge acc (f e)) h with h1 | h1
    · rcases transfer_edge_sub _ _ _ h1 with h2 | h2
      · exact Or.inl h2
      · exact Or.inr ⟨e, List.mem_cons_self e L, h2⟩
    · rcases h1 with ⟨e1, he1, heq⟩
      exact Or.inr ⟨e1, List.mem_cons_of_mem _ he1, heq⟩

theorem mem_foldl_transfer_of_mem {β : Type} (f : β → Rel) (L : List β)
    (acc : List Rel) (r : Rel) (h : r ∈ acc) :
    r ∈ L.foldl (fun acc e => transfer_edge acc (f e)) acc := by
  induction L generalizing acc with
  | nil => exact h
  | cons e L ih => exact ih _ (mem_transfer_edge _ _ _ h)

theorem foldl_transfer_adds_parent {β : Type} (f : β → Rel) (L : List β)
    (acc : List Rel) (y k : String)
    (h : (Rel.mk y k RelType.PARENT_OF) ∈ acc ∨
      ∃ e ∈ L, f e = Rel.mk y k RelType.PARENT_OF) :
    (Rel.mk y k RelType.PARENT_OF) ∈
      L.foldl (fun acc e => transfer_edge acc (f e)) acc := by
  induction L generalizing acc with
  | nil =>
    rcases h with h | ⟨e, he, _⟩
    · exact h
    · exact absurd he (List.not_mem_nil e)
  | cons e L ih =>
    rcases h with h | ⟨e1, he1, heq⟩
    · exact ih _ (Or.inl (mem_transfer_edge _ _ _ h))
    · rcases List.mem_cons.mp he1 with he2 | he1
      · refine ih _ (Or.inl ?_)
        rw [he2] at heq
        show (Rel.mk y k RelType.PARENT_OF) ∈ transfer_edge acc (f e)
        rw [heq]
        show (Rel.mk y k RelType.PARENT_OF) ∈
          (if equivalent_edge_exists acc y k RelType.PARENT_OF then acc
           else acc ++ [Rel.mk y k RelType.PARENT_OF])
        by_cases hc : equivalent_edge_exists acc y k RelType.PARENT_OF = true
        · rw [if_pos hc]
          exact (equiv_parent_mem acc y k).mp hc
        · rw [if_neg (by simpa using hc)]
          exact List.mem_append_right _ (by simp)
      · exact ih _ (Or.inr ⟨e1, he1, heq⟩)

-- ═══ Reconciliation lemmas for C5: single merge ═══

theorem merge_eq_self_left (st : State) (k r : String)
    (h : get_person st k = none) : merge_person_into st k r = st := by
  unfold merge_person_into
  rw [h]

theorem merge_eq_self_right (st : State) (k r : String) (kk : Person)
    (hk : get_person st k = some kk) (h : get_person st r = none) :
    merge_person_into st k r = st := by
  unfold merge_person_into
  rw [hk, h]

theorem merge_eq_of_found (st : State) (k r : String) (kk rr : Person)
    (hk : get_person st k = some kk) (hr : get_person st r = some rr) :
    merge_person_into st k r = delete_person
      { people := st.people.map (fun p => if p.id = k then reconcile_fields p rr else p),
        rels := (st.rels.filter (fun x =>
            decide (x.to_person_id = r ∧ x.from_person_id ≠ k))).foldl
          (fun acc x => transfer_edge acc ⟨x.from_person_id, k, x.type⟩)
          ((st.rels.filter (fun x =>
              decide (x.from_person_id = r ∧ x.to_person_id ≠ k))).foldl
            (fun acc x => transfer_edge acc ⟨k, x.to_person_id, x.type⟩) st.rels),
        comments := st.comments.map (fun c =>
          if c.person_id = r then { c with person_id := k } else c) } r := by
  unfold merge_person_into
  rw [hk, hr]

theorem merge_people_sub (st : State) (k r : String) (p : Person)
    (h : p ∈ (merge_person_into st k r).people) :
    ∃ q ∈ st.people, p.id = q.id ∧ p.display_name = q.display_name := by
  rcases hk : get_person st k with _ | kk
  · rw [merge_eq_self_left st k r hk] at h
    exact ⟨p, h, rfl, rfl⟩
  · rcases hr : get_person st r with _ | rr
    · rw [merge_eq_self_right st k r kk hk hr] at h
      exact ⟨p, h, rfl, rfl⟩
    · rw [merge_eq_of_found st k r kk rr hk hr] at h
      rw [mem_people_delete] at h
      rcases List.mem_map.mp h.1 with ⟨q, hq, hqe⟩
      by_cases hqk : q.id = k
      · rw [if_pos hqk] at hqe
        exact ⟨q, hq, by rw [← hqe]; rfl, by rw [← hqe]; rfl⟩
      · rw [if_neg hqk] at hqe
        exact ⟨q, hq, by rw [hqe], by rw [hqe]⟩

theorem merge_person_removed (st : State) (k r : String) (kk rr : Person)
    (hk : get_person st k = some kk) (hr : get_person st r = some rr) :
    get_person (merge_person_into st k r) r = none := by
  rw [merge_eq_of_found st k r kk rr hk hr]
  exact get_person_delete_self _ r

theorem merge_people_keep (st : State) (k r : String) (q : Person)
    (hq : q ∈ st.people) (hqr : q.id ≠ r) :
    ∃ p ∈ (merge_person_into st k r).people,
      p.id = q.id ∧ p.display_name = q.display_name := by
  rcases hk : get_person st k with _ | kk
  · rw [merge_eq_self_left st k r hk]
    exact ⟨q, hq, rfl, rfl⟩
  · rcases hr : get_person st r with _ | rr
    · rw [merge_eq_self_right st k r kk hk hr]
      exact ⟨q, hq, rfl, rfl⟩
    · rw [merge_eq_of_found st k r kk rr hk hr]
      by_cases hqk : q.id = k
      · refine ⟨reconcile_fields q rr, ?_, rfl, rfl⟩
        rw [mem_people_delete]
        exact ⟨List.mem_map.mpr ⟨q, hq, by rw [if_pos hqk]⟩, hqr⟩
      · refine ⟨q, ?_, rfl, rfl⟩
        rw [mem_people_delete]
        exact ⟨List.mem_map.mpr ⟨q, hq, by rw [if_neg hqk]⟩, hqr⟩

theorem merge_rels_sub (st : State) (k r : String) (e : Rel)
    (h : e ∈ (merge_person_into st k r).rels) :
    e ∈ st.rels ∨ e.from_person_id = k ∨ e.to_person_id = k := by
  rcases hk : get_person st k with _ | kk
  · rw [merge_eq_self_left st k r hk] at h
    exact Or.inl h
  · rcases hr : get_person st r with _ | rr
    · rw [merge_eq_self_right st k r kk hk hr] at h
      exact Or.inl h
    · rw [merge_eq_of_found st k r kk rr hk hr] at h
      have h1 := ((mem_rels_delete _ _ _).mp h).1
      rcases mem_foldl_transfer _ _ _ _ h1 with h2 | ⟨x, _, hx⟩
      · rcases mem_foldl_transfer _ _ _ _ h2 with h3 | ⟨x, _, hx⟩
        · exact Or.inl h3
        · right
          left
          rw [hx]
      · right
        right
        rw [hx]

theorem merge_rels_keep (st : State) (k r : String) (e : Rel)
    (he : e ∈ st.rels) (h1 : e.from_person_id ≠ r) (h2 : e.to_person_id ≠ r) :
    e ∈ (merge_person_into st k r).rels := by
  rcases hk : get_person st k with _ | kk
  · rw [merge_eq_self_left st k r hk]
    exact he
  · rcases hr : get_person st r with _ | rr
    · rw [merge_eq_self_right st k r kk hk hr]
      exact he
    · rw [merge_eq_of_found st k r kk rr hk hr]
      refine (mem_rels_delete _ _ _).mpr ⟨?_, h1, h2⟩
      exact mem_foldl_transfer_of_mem _ _ _ _ (mem_foldl_transfer_of_mem _ _ _ _ he)

theorem merge_adds_incoming_parent (st : State) (k r y : String) (kk rr : Person)
    (hk : get_person st k = some kk) (hr : get_person st r = some rr)
    (he : (Rel.mk y r RelType.PARENT_OF) ∈ st.rels)
    (hyk : y ≠ k) (hyr : y ≠ r) (hkr : k ≠ r) :
    (Rel.mk y k RelType.PARENT_OF) ∈ (merge_person_into st k r).rels := by
  rw [merge_eq_of_found st k r kk rr hk hr]
  refine (mem_rels_delete _ _ _).mpr ⟨?_, by simpa using hyr, by simpa using hkr⟩
  apply foldl_transfer_adds_parent
  right
  refine ⟨Rel.mk y r RelType.PARENT_OF, ?_, rfl⟩
  exact List.mem_filter.mpr ⟨he, by simp [hyk]⟩

-- ═══ Reconciliation lemmas for C5: the common-name pass ═══

theorem mergeCommon_people_sub (cA cB : List Person) (ns : List String)
    (st : State) (p : Person) (h : p ∈ (mergeCommon cA cB ns st).1.people) :
    ∃ q ∈ st.people, p.id = q.id ∧ p.display_name = q.display_name := by
  induction ns generalizing st with
  | nil => exact ⟨p, h, rfl, rfl⟩
  | cons n ns ih =>
    simp only [mergeCommon] at h
    rcases hm : matchPair cA cB n with _ | ⟨x, y⟩ <;> simp only [hm] at h
    · exact ih st h
    · by_cases hxy : x.id = y.id
      · rw [if_pos hxy] at h
        exact ih st h
      · rw [if_neg hxy] at h
        simp only at h
        rcases ih _ h with ⟨q, hq, h1, h2⟩
        rcases merge_people_sub st x.id y.id q hq with ⟨q2, hq2, h3, h4⟩
        exact ⟨q2, hq2, h1.trans h3, h2.trans h4⟩

theorem mergeCommon_rels_sub (cA cB : List Person) (ns : List String)
    (st : State) (e : Rel) (h : e ∈ (mergeCommon cA cB ns st).1.rels) :
    e ∈ st.rels ∨ ∃ n' ∈ ns, ∃ x y, matchPair cA cB n' = some (x, y) ∧
      x.id ≠ y.id ∧ (e.from_person_id = x.id ∨ e.to_person_id = x.id) := by
  induction ns generalizing st with
  | nil => exact Or.inl h
  | cons n ns ih =>
    simp only [mergeCommon] at h
    rcases hm : matchPair cA cB n with _ | ⟨x, y⟩ <;> simp only [hm] at h
    · rcases ih st h with h1 | ⟨n', hn', rest⟩
      · exact Or.inl h1
      · exact Or.inr ⟨n', List.mem_cons_of_mem _ hn', rest⟩
    · by_cases hxy : x.id = y.id
      · rw [if_pos hxy] at h
        rcases ih st h with h1 | ⟨n', hn', rest⟩
        · exact Or.inl h1
        · exact Or.inr ⟨n', List.mem_cons_of_mem _ hn', rest⟩
      · rw [if_neg hxy] at h
        simp only at h
        rcases ih _ h with h1 | ⟨n', hn', rest⟩
        · rcases merge_rels_sub st x.id y.id e h1 with h2 | h2
          · exact Or.inl h2
          · exact Or.inr ⟨n, List.mem_cons_self n ns, x, y, hm, hxy, h2⟩
        · exact Or.inr ⟨n', List.mem_cons_of_mem _ hn', rest⟩

theorem mergeCommon_rels_keep (cA cB : List Person) (ns : List String)
    (st : State) (e : Rel) (he : e ∈ st.rels)
    (hside : ∀ n' ∈ ns, ∀ x y, matchPair cA cB n' = some (x, y) → x.id ≠ y.id →
      e.from_person_id ≠ y.id ∧ e.to_person_id ≠ y.id) :
    e ∈ (mergeCommon cA cB ns st).1.rels := by
  induction ns generalizing st with
  | nil => exact he
  | cons n ns ih =>
    simp only [mergeCommon]
    rcases hm : matchPair cA cB n with _ | ⟨x, y⟩ <;> simp only [hm]
    · exact ih st he (fun n' hn' => hside n' (List.mem_cons_of_mem _ hn'))
    · by_cases hxy : x.id = y.id
      · rw [if_pos hxy]
        exact ih st he (fun n' hn' => hside n' (List.mem_cons_of_mem _ hn'))
      · rw [if_neg hxy]
        have hside1 := hside n (List.mem_cons_self n ns) x y hm hxy
        exact ih _ (merge_rels_keep st x.id y.id e he hside1.1 hside1.2)
          (fun n' hn' => hside n' (List.mem_cons_of_mem _ hn'))

theorem mergeCommon_people_keep (cA cB : List Person) (ns : List String)
    (st : State) (q : Person) (hq : q ∈ st.people)
    (hside : ∀ n' ∈ ns, ∀ x y, matchPair cA cB n' = some (x, y) → x.id ≠ y.id →
      q.id ≠ y.id) :
    ∃ p ∈ (mergeCommon cA cB ns st).1.people,
      p.id = q.id ∧ p.display_name = q.display_name := by
  induction ns generalizing st q with
  | nil => exact ⟨q, hq, rfl, rfl⟩
  | cons n ns ih =>
    simp only [mergeCommon]
    rcases hm : matchPair cA cB n with _ | ⟨x, y⟩ <;> simp only [hm]
    · exact ih st q hq (fun n' hn' => hside n' (List.mem_cons_of_mem _ hn'))
    · by_cases hxy : x.id = y.id
      · rw [if_pos hxy]
        exact ih st q hq (fun n' hn' => hside n' (List.mem_cons_of_mem _ hn'))
      · rw [if_neg hxy]
        have hqy := hside n (List.mem_cons_self n ns) x y hm hxy
        rcases merge_people_keep st x.id y.id q hq hqy with ⟨p1, hp1, h1, h2⟩
        rcases ih _ p1 hp1
          (fun n' hn' x' y' hm' hxy' => h1 ▸ hside n' (List.mem_cons_of_mem _ hn') x' y' hm' hxy')
          with ⟨p2, hp2, h3, h4⟩
        exact ⟨p2, hp2, h3.trans h1, h4.trans h2⟩

theorem mergeCommon_absent (cA cB : List Person) (ns : List String)
    (st : State) (z : String) (hz : get_person st z = none) :
    get_person (mergeCommon cA cB ns st).1 z = none := by
  rcases hg : get_person (mergeCommon cA cB ns st).1 z with _ | p
  · rfl
  · exfalso
    rcases get_person_some _ _ _ hg with ⟨hp, hpid⟩
    rcases mergeCommon_people_sub cA cB ns st p hp with ⟨q, hq, h1, _⟩
    exact (get_person_none_iff st z).mp hz q hq (by rw [← h1, hpid])

theorem mergeCommon_append (cA cB : List Person) (l1 l2 : List String) (st : State) :
    mergeCommon cA cB (l1 ++ l2) st =
      ((mergeCommon cA cB l2 (mergeCommon cA cB l1 st).1).1,
       (mergeCommon cA cB l1 st).2 ++
         (mergeCommon cA cB l2 (mergeCommon cA cB l1 st).1).2) := by
  induction l1 generalizing st with
  | nil => simp [mergeCommon]
  | cons n ns ih =>
    rw [List.cons_append]
    simp only [mergeCommon]
    rcases hm : matchPair cA cB n with _ | ⟨x, y⟩ <;> simp only [hm]
    · exact ih st
    · by_cases hxy : x.id = y.id
      · rw [if_pos hxy, if_pos hxy]
        exact ih st
      · rw [if_neg hxy, if_neg hxy]
        rw [ih _]
        simp

-- ═══ Reconciliation lemmas for C5: the sharing pass ═══

theorem shareChildren_state (pid : String) (ks : List Person) (st : State) :
    (shareChildren pid ks st).1.people = st.people ∧
    (shareChildren pid ks st).1.comments = st.comments := by
  induction ks generalizing st with
  | nil => exact ⟨rfl, rfl⟩
  | cons k ks ih =>
    simp only [shareChildren]
    constructor
    · rw [(ih _).1]
      split <;> rfl
    · rw [(ih _).2]
      split <;> rfl

theorem shareChildren_rels_keep (pid : String) (ks : List Person) (st : State)
    (e : Rel) (he : e ∈ st.rels) : e ∈ (shareChildren pid ks st).1.rels := by
  induction ks generalizing st with
  | nil => exact he
  | cons k ks ih =>
    simp only [shareChildren]
    apply ih
    split
    · exact he
    · exact List.mem_append_left _ he

theorem shareChildren_rels_sub (pid : String) (ks : List Person) (st : State)
    (e : Rel) (h : e ∈ (shareChildren pid ks st).1.rels) :
    e ∈ st.rels ∨ ∃ k ∈ ks, e = Rel.mk pid k.id RelType.PARENT_OF := by
  induction ks generalizing st with
  | nil => exact Or.inl h
  | cons k ks ih =>
    simp only [shareChildren] at h
    rcases ih _ h with h1 | ⟨k1, hk1, heq⟩
    · revert h1
      split
      · exact fun h1 => Or.inl h1
      · intro h1
        rcases List.mem_append.mp h1 with h2 | h2
        · exact Or.inl h2
        · exact Or.inr ⟨k, List.mem_cons_self k ks, by simpa using h2⟩
    · exact Or.inr ⟨k1, List.mem_cons_of_mem _ hk1, heq⟩

theorem shareChildren_adds (pid : String) (ks : List Person) (st : State)
    (k : Person) (hk : k ∈ ks) :
    (Rel.mk pid k.id RelType.PARENT_OF) ∈ (shareChildren pid ks st).1.rels := by
  induction ks generalizing st with
  | nil => exact absurd hk (List.not_mem_nil k)
  | cons k0 ks ih =>
    simp only [shareChildren]
    rcases List.mem_cons.mp hk with hk0 | hk1
    · subst hk0
      apply shareChildren_rels_keep
      by_cases hc : equivalent_edge_exists st.rels pid k.id RelType.PARENT_OF = true
      · rw [if_pos hc]
        exact (equiv_parent_mem st.rels pid k.id).mp hc
      · rw [if_neg (by simpa using hc)]
        exact List.mem_append_right _ (by simp)
    · exact ih _ hk1

theorem shareChildren_names (pid : String) (ks : List Person) (st : State) :
    (shareChildren pid ks st).2 = ks.map (fun c => c.display_name) := by
  induction ks generalizing st with
  | nil => rfl
  | cons k ks ih =>
    simp only [shareChildren, List.map_cons]
    rw [ih _]

-- ═══ Reconciliation lemmas for C5: ordering and bucketing ═══

theorem insertSorted_perm (x : String) (l : List String) :
    (insertSorted x l).Perm (x :: l) := by
  induction l with
  | nil => exact List.Perm.refl _
  | cons y ys ih =>
    unfold insertSorted
    split
    · exact List.Perm.refl _
    · exact (List.Perm.cons y ih).trans (List.Perm.swap x y ys)

theorem sortStrings_perm (l : List String) : (sortStrings l).Perm l := by
  induction l with
  | nil => exact List.Perm.refl _
  | cons x xs ih =>
    exact (insertSorted_perm x (sortStrings xs)).trans (List.Perm.cons x ih)

theorem mem_sortStrings (n : String) (l : List String) :
    n ∈ sortStrings l ↔ n ∈ l :=
  (sortStrings_perm l).mem_iff

theorem sortStrings_nodup (l : List String) (h : l.Nodup) :
    (sortStrings l).Nodup :=
  ((sortStrings_perm l).nodup_iff).mpr h

theorem matchPair_some (cA cB : List Person) (n : String) (x y : Person)
    (h : matchPair cA cB n = some (x, y)) :
    x ∈ cA ∧ x.display_name = n ∧ y ∈ cB ∧ y.display_name = n := by
  unfold matchPair at h
  rcases ha : cA.find? (fun c => c.display_name = n) with _ | x2 <;> rw [ha] at h
  · exact absurd h (by simp)
  · rcases hb : cB.find? (fun c => c.display_name = n) with _ | y2 <;> rw [hb] at h
    · exact absurd h (by simp)
    · simp only [Option.some.injEq, Prod.mk.injEq] at h
      rw [← h.1, ← h.2]
      exact ⟨List.mem_of_find?_eq_some ha, by simpa using List.find?_some ha,
             List.mem_of_find?_eq_some hb, by simpa using List.find?_some hb⟩

theorem matchPair_eq (cA cB : List Person) (n : String) (ca cb : Person)
    (hca : ca ∈ cA) (hcan : ca.display_name = n)
    (hua : ∀ c ∈ cA, c.display_name = n → c = ca)
    (hcb : cb ∈ cB) (hcbn : cb.display_name = n)
    (hub : ∀ c ∈ cB, c.display_name = n → c = cb) :
    matchPair cA cB n = some (ca, cb) := by
  unfold matchPair
  have h1 : cA.find? (fun c => c.display_name = n) = some ca := by
    rcases hf : cA.find? (fun c => c.display_name = n) with _ | x
    · exact absurd (by simpa using List.find?_eq_none.mp hf ca hca) (by simp [hcan])
    · rw [← hua x (List.mem_of_find?_eq_some hf) (by simpa using List.find?_some hf)]
      exact hf
  have h2 : cB.find? (fun c => c.display_name = n) = some cb := by
    rcases hf : cB.find? (fun c => c.display_name = n) with _ | x
    · exact absurd (by simpa using List.find?_eq_none.mp hf cb hcb) (by simp [hcbn])
    · rw [← hub x (List.mem_of_find?_eq_some hf) (by simpa using List.find?_some hf)]
      exact hf
  rw [h1, h2]

-- ═══ Reconciliation lemmas for C5: the pipeline shape ═══

theorem merge_spouse_children_pipeline (s0 : State) (a b : String) :
    merge_spouse_children s0 a b =
      ((shareChildren a (onlyKids s0 b a)
          (shareChildren b (onlyKids s0 a b)
            (mergeCommon (children_of s0 a) (children_of s0 b)
              (commonNames s0 a b) s0).1).1).1,
       ⟨(mergeCommon (children_of s0 a) (children_of s0 b)
           (commonNames s0 a b) s0).2,
        (shareChildren a (onlyKids s0 b a)
          (shareChildren b (onlyKids s0 a b)
            (mergeCommon (children_of s0 a) (children_of s0 b)
              (commonNames s0 a b) s0).1).1).2,
        (shareChildren b (onlyKids s0 a b)
          (mergeCommon (children_of s0 a) (children_of s0 b)
            (commonNames s0 a b) s0).1).2⟩) := by
  rfl

theorem children_of_create_spouse (s : State) (a b x : String) :
    children_of (create_relationship s a b RelType.SPOUSE_OF) x =
      children_of s x := by
  unfold children_of create_relationship
  simp only [List.filter_append]
  have h1 : List.filter (fun r =>
      decide (r.type = RelType.PARENT_OF ∧ r.from_person_id = x))
      [Rel.mk a b RelType.SPOUSE_OF] = [] := by
    simp
  rw [h1, List.append_nil]
  rfl

theorem get_person_create_spouse (s : State) (a b z : String) :
    get_person (create_relationship s a b RelType.SPOUSE_OF) z =
      get_person s z := rfl

-- ═══ Claim C5 ═══

/-- Claim C5: creating a SPOUSE_OF edge through the relationship-creation
operation triggers spousal reconciliation on the new state. For every display
name carried by exactly one child record of each partner, with the two records
distinct: the pair is merged keeping the first partner's child and removing
the second partner's, the merge is recorded under merged and the name under
neither shared list, the surviving child has both partners as parents, the
removed record is gone, and no other child of either partner carries that
name. Every A-only child gains B as parent and is recorded under
shared_with_b, and mirrored for B-only children. The hypotheses are the
store sanity conditions: distinct partners who are not their own children,
unique person ids, and the spouse-limit precondition of the gate. -/
theorem c5_spousal_reconciliation (s : State) (a b : String)
    (hab : a ≠ b) (hid : nodup_ids s) (hcp : children_proper s a b)
    (hsa : ¬participates_in_spouse s a) (hsb : ¬participates_in_spouse s b) :
    ∃ s2 rep, tree_add_rel s a b RelType.SPOUSE_OF = Except.ok (s2, some rep) ∧
      (∀ n : String, ∀ ca cb : Person,
        unique_child_named s a n ca → unique_child_named s b n cb → ca.id ≠ cb.id →
        (MergedRec.mk n ca.id cb.id) ∈ rep.merged ∧
        n ∉ rep.shared_with_a ∧ n ∉ rep.shared_with_b ∧
        (∃ p ∈ s2.people, p.id = ca.id ∧ p.display_name = n) ∧
        (Rel.mk a ca.id RelType.PARENT_OF) ∈ s2.rels ∧
        (Rel.mk b ca.id RelType.PARENT_OF) ∈ s2.rels ∧
        get_person s2 cb.id = none ∧
        (∀ p ∈ s2.people, p.display_name = n →
          ((Rel.mk a p.id RelType.PARENT_OF) ∈ s2.rels ∨
           (Rel.mk b p.id RelType.PARENT_OF) ∈ s2.rels) → p.id = ca.id)) ∧
      (∀ c ∈ children_of s a,
        c.display_name ∉ (children_of s b).map (fun q => q.display_name) →
        (Rel.mk b c.id RelType.PARENT_OF) ∈ s2.rels ∧
        c.display_name ∈ rep.shared_with_b) ∧
      (∀ c ∈ children_of s b,
        c.display_name ∉ (children_of s a).map (fun q => q.display_name) →
        (Rel.mk a c.id RelType.PARENT_OF) ∈ s2.rels ∧
        c.display_name ∈ rep.shared_with_a) := by
  have hgate : tree_add_rel s a b RelType.SPOUSE_OF =
      Except.ok
        ((merge_spouse_children (create_relationship s a b RelType.SPOUSE_OF) a b).1,
         some (merge_spouse_children (create_relationship s a b RelType.SPOUSE_OF) a b).2) := by
    unfold tree_add_rel
    rw [if_neg (fun hc => hsa ((count_spouses_pos_iff s a).mp hc)),
        if_neg (fun hc => hsb ((count_spouses_pos_iff s b).mp hc))]
  have hpipe :=
    merge_spouse_children_pipeline (create_relationship s a b RelType.SPOUSE_OF) a b
  have hchA := children_of_create_spouse s a b a
  have hchB := children_of_create_spouse s a b b
  have hcn : commonNames (create_relationship s a b RelType.SPOUSE_OF) a b =
      commonNames s a b := by
    unfold commonNames
    rw [hchA, hchB]
  have hoAB : onlyKids (create_relationship s a b RelType.SPOUSE_OF) a b =
      onlyKids s a b := by
    unfold onlyKids
    rw [hchA, hchB]
  have hoBA : onlyKids (create_relationship s a b RelType.SPOUSE_OF) b a =
      onlyKids s b a := by
    unfold onlyKids
    rw [hchA, hchB]
  rw [hchA, hchB, hcn, hoAB, hoBA] at hpipe
  set s1 := create_relationship s a b RelType.SPOUSE_OF with hs1def
  set cA := children_of s a with hcAdef
  set cB := children_of s b with hcBdef
  set common := commonNames s a b with hcomdef
  set mid := mergeCommon cA cB common s1 with hmiddef
  set st4 := shareChildren b (onlyKids s a b) mid.1 with hst4def
  set st5 := shareChildren a (onlyKids s b a) st4.1 with hst5def
  have hoA : onlyKids s a b = cA.filter (fun c =>
      !((cB.map (fun c => c.display_name)).contains c.display_name)) := rfl
  have hoB : onlyKids s b a = cB.filter (fun c =>
      !((cA.map (fun c => c.display_name)).contains c.display_name)) := rfl
  have hpeople45 : st5.1.people = mid.1.people := by
    rw [hst5def, (shareChildren_state a (onlyKids s b a) st4.1).1,
        hst4def, (shareChildren_state b (onlyKids s a b) mid.1).1]
  have hmemA : ∀ x ∈ cA, x ∈ s.people := fun x hx => (child_mem s a x hx).1
  have hmemB : ∀ x ∈ cB, x ∈ s.people := fun x hx => (child_mem s b x hx).1
  have hprA : ∀ x ∈ cA, x.id ≠ a ∧ x.id ≠ b :=
    fun x hx => hcp x (List.mem_append_left _ hx)
  have hprB : ∀ x ∈ cB, x.id ≠ a ∧ x.id ≠ b :=
    fun x hx => hcp x (List.mem_append_right _ hx)
  have hnods : common.Nodup := by
    rw [hcomdef]
    unfold commonNames
    exact sortStrings_nodup _ (List.nodup_dedup _)
  have hs1rels : s1.rels = s.rels ++ [Rel.mk a b RelType.SPOUSE_OF] := rfl
  have hrec : ∀ u v : Person, u ∈ s.people → v ∈ s.people → u.id = v.id → u = v :=
    fun u v hu hv => same_id_same_record s hid u v hu hv
  refine ⟨st5.1, ⟨mid.2, st5.2, st4.2⟩, by rw [hgate, hpipe], ?_, ?_, ?_⟩
  · -- the common-name part
    intro n ca cb hca hcb hne
    obtain ⟨hcaA, hcaN, hcaU⟩ := hca
    obtain ⟨hcbB, hcbN, hcbU⟩ := hcb
    have hninA : n ∈ cA.map (fun c => c.display_name) :=
      List.mem_map.mpr ⟨ca, hcaA, hcaN⟩
    have hninB : n ∈ cB.map (fun c => c.display_name) :=
      List.mem_map.mpr ⟨cb, hcbB, hcbN⟩
    have hmatch : matchPair cA cB n = some (ca, cb) :=
      matchPair_eq cA cB n ca cb hcaA hcaN hcaU hcbB hcbN hcbU
    have hncom : n ∈ common := by
      rw [hcomdef]
      unfold commonNames
      rw [mem_sortStrings, List.mem_dedup]
      exact List.mem_filter.mpr ⟨hninA, by simpa using hninB⟩
    have hyca : ∀ (n' : String) (x y : Person), matchPair cA cB n' = some (x, y) →
        x.id ≠ y.id → ca.id ≠ y.id := by
      intro n' x y hm hxy
      rcases matchPair_some cA cB n' x y hm with ⟨hxA, hxN, hyB, hyN⟩
      by_cases hnn : n' = n
      · subst hnn
        have hxy2 : ca = x ∧ cb = y := by
          have h2 := hmatch.symm.trans hm
          simpa using h2
        rw [← hxy2.2]
        exact hne
      · intro hideq
        have hyc : y = ca := hrec y ca (hmemB y hyB) (hmemA ca hcaA) hideq.symm
        exact hnn (by rw [← hyN, hyc, hcaN])
    have hycb : ∀ (n' : String) (x y : Person), n' ≠ n →
        matchPair cA cB n' = some (x, y) → x.id ≠ y.id → cb.id ≠ y.id := by
      intro n' x y hnn hm hxy hideq
      rcases matchPair_some cA cB n' x y hm with ⟨hxA, hxN, hyB, hyN⟩
      have hyc : y = cb := hrec y cb (hmemB y hyB) (hmemB cb hcbB) hideq.symm
      exact hnn (by rw [← hyN, hyc, hcbN])
    obtain ⟨l1, l2, hsplit⟩ := List.append_of_mem hncom
    have hnodsplit := hnods
    rw [hsplit] at hnodsplit
    have hnl1 : n ∉ l1 := by
      intro hmem
      exact (List.disjoint_of_nodup_append hnodsplit) hmem (List.mem_cons_self n l2)
    have hl1mem : ∀ n' ∈ l1, n' ∈ common := by
      intro n' h
      rw [hsplit]
      exact List.mem_append_left _ h
    have hcaS1 : ca ∈ s1.people := hmemA ca hcaA
    have hcbS1 : cb ∈ s1.people := hmemB cb hcbB
    set stMid := (mergeCommon cA cB l1 s1).1 with hstmid
    obtain ⟨pca, hpcaMem, hpcaId, hpcaName⟩ :=
      mergeCommon_people_keep cA cB l1 s1 ca hcaS1
        (fun n' hn' x y hm hxy => hyca n' x y hm hxy)
    obtain ⟨pcb, hpcbMem, hpcbId, hpcbName⟩ :=
      mergeCommon_people_keep cA cB l1 s1 cb hcbS1
        (fun n' hn' x y hm hxy =>
          hycb n' x y (fun he => hnl1 (he ▸ hn')) hm hxy)
    obtain ⟨pka, hka, hkaid⟩ := get_person_isSome_of_mem stMid pca hpcaMem
    rw [hpcaId] at hka
    obtain ⟨pkb, hkb, hkbid⟩ := get_person_isSome_of_mem stMid pcb hpcbMem
    rw [hpcbId] at hkb
    have heAca : (Rel.mk a ca.id RelType.PARENT_OF) ∈ s.rels := (child_mem s a ca hcaA).2
    have heBcb : (Rel.mk b cb.id RelType.PARENT_OF) ∈ s.rels := (child_mem s b cb hcbB).2
    have heAcaS1 : (Rel.mk a ca.id RelType.PARENT_OF) ∈ s1.rels := by
      rw [hs1rels]
      exact List.mem_append_left _ heAca
    have heBcbS1 : (Rel.mk b cb.id RelType.PARENT_OF) ∈ s1.rels := by
      rw [hs1rels]
      exact List.mem_append_left _ heBcb
    have heBcbMid : (Rel.mk b cb.id RelType.PARENT_OF) ∈ stMid.rels := by
      refine mergeCommon_rels_keep cA cB l1 s1 _ heBcbS1 ?_
      intro n' hn' x y hm hxy
      rcases matchPair_some cA cB n' x y hm with ⟨_, _, hyB, _⟩
      exact ⟨Ne.symm (hprB y hyB).2,
             hycb n' x y (fun he => hnl1 (he ▸ hn')) hm hxy⟩
    have hstep : mergeCommon cA cB (n :: l2) stMid =
        ((mergeCommon cA cB l2 (merge_person_into stMid ca.id cb.id)).1,
         (MergedRec.mk n ca.id cb.id) ::
           (mergeCommon cA cB l2 (merge_person_into stMid ca.id cb.id)).2) := by
      simp only [mergeCommon, hmatch]
      rw [if_neg hne]
    have hmidsplit : mid =
        ((mergeCommon cA cB l2 (merge_person_into stMid ca.id cb.id)).1,
         (mergeCommon cA cB l1 s1).2 ++
           (MergedRec.mk n ca.id cb.id) ::
             (mergeCommon cA cB l2 (merge_person_into stMid ca.id cb.id)).2) := by
      rw [hmiddef, hsplit, mergeCommon_append, ← hstmid, hstep]
    have habs5 : get_person st5.1 cb.id = none := by
      have habs1 : get_person (merge_person_into stMid ca.id cb.id) cb.id = none :=
        merge_person_removed stMid ca.id cb.id pka pkb hka hkb
      have habs2 : get_person
          (mergeCommon cA cB l2 (merge_person_into stMid ca.id cb.id)).1 cb.id = none :=
        mergeCommon_absent _ _ _ _ _ habs1
      have habs3 : get_person mid.1 cb.id = none := by
        rw [hmidsplit]
        exact habs2
      unfold get_person at habs3 ⊢
      rw [hpeople45]
      exact habs3
    refine ⟨?_, ?_, ?_, ?_, ?_, ?_, habs5, ?_⟩
    · -- the merge is recorded
      show (MergedRec.mk n ca.id cb.id) ∈ mid.2
      rw [hmidsplit]
      exact List.mem_append_right _ (List.mem_cons_self _ _)
    · -- n not among shared_with_a
      show n ∉ st5.2
      rw [hst5def, shareChildren_names]
      intro hmem
      rcases List.mem_map.mp hmem with ⟨k, hk, hkn⟩
      rw [hoB] at hk
      have h2 := (List.mem_filter.mp hk).2
      rw [hkn] at h2
      simp only [Bool.not_eq_true', Bool.not_eq_true] at h2
      exact absurd hninA (by simpa using h2)
    · -- n not among shared_with_b
      show n ∉ st4.2
      rw [hst4def, shareChildren_names]
      intro hmem
      rcases List.mem_map.mp hmem with ⟨k, hk, hkn⟩
      rw [hoA] at hk
      have h2 := (List.mem_filter.mp hk).2
      rw [hkn] at h2
      simp only [Bool.not_eq_true', Bool.not_eq_true] at h2
      exact absurd hninB (by simpa using h2)
    · -- the kept child survives
      obtain ⟨p0, hp0, hp0id, hp0name⟩ :=
        mergeCommon_people_keep cA cB common s1 ca hcaS1
          (fun n' hn' x y hm hxy => hyca n' x y hm hxy)
      refine ⟨p0, ?_, hp0id, by rw [hp0name, hcaN]⟩
      rw [hpeople45]
      exact hp0
    · -- PARENT_OF a -> kept child survives merging and sharing
      have hAcaMid : (Rel.mk a ca.id RelType.PARENT_OF) ∈ mid.1.rels := by
        refine mergeCommon_rels_keep cA cB common s1 _ heAcaS1 ?_
        intro n' hn' x y hm hxy
        rcases matchPair_some cA cB n' x y hm with ⟨_, _, hyB, _⟩
        exact ⟨Ne.symm (hprB y hyB).1, hyca n' x y hm hxy⟩
      exact shareChildren_rels_keep a (onlyKids s b a) st4.1 _
        (shareChildren_rels_keep b (onlyKids s a b) mid.1 _ hAcaMid)
    · -- PARENT_OF b -> kept child is created by the merge
      have haddb : (Rel.mk b ca.id RelType.PARENT_OF) ∈
          (merge_person_into stMid ca.id cb.id).rels :=
        merge_adds_incoming_parent stMid ca.id cb.id b pka pkb hka hkb heBcbMid
          (Ne.symm (hprA ca hcaA).2) (Ne.symm (hprB cb hcbB).2) hne
      have hBcaL2 : (Rel.mk b ca.id RelType.PARENT_OF) ∈
          (mergeCommon cA cB l2 (merge_person_into stMid ca.id cb.id)).1.rels := by
        refine mergeCommon_rels_keep cA cB l2 _ _ haddb ?_
        intro n' hn' x y hm hxy
        rcases matchPair_some cA cB n' x y hm with ⟨_, _, hyB, _⟩
        exact ⟨Ne.symm (hprB y hyB).2, hyca n' x y hm hxy⟩
      have hBcaMid : (Rel.mk b ca.id RelType.PARENT_OF) ∈ mid.1.rels := by
        rw [hmidsplit]
        exact hBcaL2
      exact shareChildren_rels_keep a (onlyKids s b a) st4.1 _
        (shareChildren_rels_keep b (onlyKids s a b) mid.1 _ hBcaMid)
    · -- uniqueness of the surviving child of that name
      intro p hp hpn hedge
      have hpmid : p ∈ mid.1.people := by
        rw [← hpeople45]
        exact hp
      obtain ⟨q, hqS1, hqid, hqname⟩ := mergeCommon_people_sub cA cB common s1 p hpmid
      have hqS : q ∈ s.people := hqS1
      have hqn : q.display_name = n := by rw [← hqname, hpn]
      have hgq : get_person s p.id = some q := by
        rw [hqid]
        exact get_person_of_mem_nodup s hid q hqS
      rcases hedge with hea | heb
      · rcases shareChildren_rels_sub a (onlyKids s b a) st4.1 _ hea with h4 | ⟨k, hk, hkeq⟩
        · rcases shareChildren_rels_sub b (onlyKids s a b) mid.1 _ h4 with h5 | ⟨k, hk, hkeq⟩
          · rcases mergeCommon_rels_sub cA cB common s1 _ h5 with h6 | ⟨n', hn', x, y, hm, hxy, hfx⟩
            · rw [hs1rels] at h6
              rcases List.mem_append.mp h6 with h7 | h7
              · have hqch : q ∈ cA := mem_children_of s a p.id q h7 hgq
                have hqca : q = ca := hcaU q hqch hqn
                rw [hqid, hqca]
              · simp at h7
            · rcases matchPair_some cA cB n' x y hm with ⟨hxA, hxN, hyB, hyN⟩
              rcases hfx with hfx | hfx
              · exact absurd hfx.symm (hprA x hxA).1
              · have hqx : q = x := hrec q x hqS (hmemA x hxA) (hqid.symm.trans hfx)
                have hnn : n' = n := by rw [← hxN, ← hqx, hqn]
                subst hnn
                have hxy2 : ca = x ∧ cb = y := by
                  have h8 := hmatch.symm.trans hm
                  simpa using h8
                rw [hqid, hqx, ← hxy2.1]
          · exact absurd ((Rel.mk.injEq _ _ _ _ _ _).mp hkeq).1 hab
        · have hpk : p.id = k.id := ((Rel.mk.injEq _ _ _ _ _ _).mp hkeq).2.1
          rw [hoB] at hk
          have hkB := (List.mem_filter.mp hk).1
          have hknA := (List.mem_filter.mp hk).2
          have hqk : q = k := hrec q k hqS (hmemB k hkB) (hqid.symm.trans hpk).symm.symm
          rw [hqk] at hqn
          rw [hqn] at hknA
          simp only [Bool.not_eq_true', Bool.not_eq_true] at hknA
          exact absurd hninA (by simpa using hknA)
      · rcases shareChildren_rels_sub a (onlyKids s b a) st4.1 _ heb with h4 | ⟨k, hk, hkeq⟩
        · rcases shareChildren_rels_sub b (onlyKids s a b) mid.1 _ h4 with h5 | ⟨k, hk, hkeq⟩
          · rcases mergeCommon_rels_sub cA cB common s1 _ h5 with h6 | ⟨n', hn', x, y, hm, hxy, hfx⟩
            · rw [hs1rels] at h6
              rcases List.mem_append.mp h6 with h7 | h7
              · have hqch : q ∈ cB := mem_children_of s b p.id q h7 hgq
                have hqcb : q = cb := hcbU q hqch hqn
                exfalso
                have hpid : p.id = cb.id := by rw [hqid, hqcb]
                have h9 := (get_person_none_iff st5.1 cb.id).mp habs5 p hp
                exact h9 hpid
              · simp at h7
            · rcases matchPair_some cA cB n' x y hm with ⟨hxA, hxN, hyB, hyN⟩
              rcases hfx with hfx | hfx
              · exact absurd hfx.symm (hprA x hxA).2
              · have hqx : q = x := hrec q x hqS (hmemA x hxA) (hqid.symm.trans hfx)
                have hnn : n' = n := by rw [← hxN, ← hqx, hqn]
                subst hnn
                have hxy2 : ca = x ∧ cb = y := by
                  have h8 := hmatch.symm.trans hm
                  simpa using h8
                rw [hqid, hqx, ← hxy2.1]
          · have hpk : p.id = k.id := ((Rel.mk.injEq _ _ _ _ _ _).mp hkeq).2.1
            rw [hoA] at hk
            have hkA := (List.mem_filter.mp hk).1
            have hknB := (List.mem_filter.mp hk).2
            have hqk : q = k := hrec q k hqS (hmemA k hkA) (hqid.symm.trans hpk)
            rw [hqk] at hqn
            rw [hqn] at hknB
            simp only [Bool.not_eq_true', Bool.not_eq_true] at hknB
            exact absurd hninB (by simpa using hknB)
        · have h8 := (Rel.mk.injEq _ _ _ _ _ _).mp hkeq
          exact absurd h8.1.symm hab
  · -- the A-only sharing part
    intro c hc hcn2
    have hcin : c ∈ onlyKids s a b := by
      rw [hoA]
      refine List.mem_filter.mpr ⟨hc, ?_⟩
      simpa using hcn2
    refine ⟨?_, ?_⟩
    · exact shareChildren_rels_keep a (onlyKids s b a) st4.1 _
        (shareChildren_adds b (onlyKids s a b) mid.1 c hcin)
    · show c.display_name ∈ st4.2
      rw [hst4def, shareChildren_names]
      exact List.mem_map.mpr ⟨c, hcin, rfl⟩
  · -- the B-only sharing part
    intro c hc hcn2
    have hcin : c ∈ onlyKids s b a := by
      rw [hoB]
      refine List.mem_filter.mpr ⟨hc, ?_⟩
      simpa using hcn2
    refine ⟨shareChildren_adds a (onlyKids s b a) st4.1 c hcin, ?_⟩
    show c.display_name ∈ st5.2
    rw [hst5def, shareChildren_names]
    exact List.mem_map.mpr ⟨c, hcin, rfl⟩

/-- Witness for C5 on the concrete graph: linking F and M merges the two
distinct Kid records keeping k1 with both parents and dropping k2, records the
merge and keeps Kid off both shared lists, and shares the F-only child Solo
with M, recording it under shared_with_b. -/
theorem c5_witness :
    ∃ s2 rep, tree_add_rel reconWitnessState "F" "M" RelType.SPOUSE_OF =
        Except.ok (s2, some rep) ∧
      (MergedRec.mk "Kid" "k1" "k2") ∈ rep.merged ∧
      "Kid" ∉ rep.shared_with_a ∧ "Kid" ∉ rep.shared_with_b ∧
      (Rel.mk "F" "k1" RelType.PARENT_OF) ∈ s2.rels ∧
      (Rel.mk "M" "k1" RelType.PARENT_OF) ∈ s2.rels ∧
      get_person s2 "k2" = none ∧
      (Rel.mk "M" "s1" RelType.PARENT_OF) ∈ s2.rels ∧
      "Solo" ∈ rep.shared_with_b := by
  obtain ⟨s2, rep, heq, hcom, hshB, hshA⟩ :=
    c5_spousal_reconciliation reconWitnessState "F" "M" (by decide) (by decide)
      (by decide) (by decide) (by decide)
  have h := hcom "Kid" (mkPerson "k1" "Kid") (mkPerson "k2" "Kid")
    (by decide) (by decide) (by decide)
  have h2 := hshB (mkPerson "s1" "Solo") (by decide) (by decide)
  exact ⟨s2, rep, heq, h.1, h.2.1, h.2.2.1, h.2.2.2.2.1, h.2.2.2.2.2.1,
         h.2.2.2.2.2.2.1, h2.1, h2.2⟩

end FamilyTreeVerify
